import Mathlib

/-!
Verification of the llm-openai-format-fixer proxy (TypeScript sources under
`src/`).  The development shallowly embeds the translation engine of the
proxy: the SSE assembler `readSSEAndAssembleChatCompletion`, the Anthropic
stream projector `createAnthropicStreamFromOpenAI`, the response builders of
`utils/responses.ts`, the request normalizers, the JSON recovery helper
`extractProbablyJSON` and the URL helper `upstreamUrlFor`, all from
`src/services/llmService.ts` and `src/utils/responses.ts`.

Modelling conventions:
* JavaScript values read by the code are modelled by the inductive `JVal`;
  JSON numbers are modelled as integers (the code never computes with them).
* `JSON.parse` / `JSON.stringify` of the platform are modelled by the
  executable `jsonParse` / `jsonStringify` below.
* Upstream SSE byte streams are modelled as the list of complete lines the
  UTF-8 decode / `indexOf("\n")` loop of the source produces; a line is
  either the literal `[DONE]` marker, a `data:` line whose payload parsed as
  JSON (already projected onto the fields the source reads), or any other
  line, which both stream consumers skip.
* Effects (uuid generation, `Date.now`, the upstream fetch) are passed in as
  explicit arguments.
-/

namespace LlmFixer

/-- JavaScript/JSON value as far as the proxy inspects it.  Numbers are
modelled as integers. -/
inductive JVal where
  | jnull : JVal
  | jbool : Bool → JVal
  | jnum : Int → JVal
  | jstr : String → JVal
  | jarr : List JVal → JVal
  | jobj : List (String × JVal) → JVal
deriving Repr

/-- The `{` character, kept out of string literals. -/
def braceOpen : Char := Char.ofNat 123

/-- The `}` character. -/
def braceClose : Char := Char.ofNat 125

/-- One hexadecimal digit (lower case), as produced by JSON escapes. -/
def hexDigit (n : Nat) : Char :=
  if n < 10 then Char.ofNat (48 + n) else Char.ofNat (87 + n)

/-- JSON string escaping as performed by `JSON.stringify`. -/
def escChar (c : Char) : List Char :=
  if c = '"' then ['\\', '"']
  else if c = '\\' then ['\\', '\\']
  else if c = '\n' then ['\\', 'n']
  else if c = '\t' then ['\\', 't']
  else if c = '\r' then ['\\', 'r']
  else if c.toNat < 32 then
    ['\\', 'u', '0', '0', hexDigit (c.toNat / 16), hexDigit (c.toNat % 16)]
  else [c]

/-- Escape a whole string for JSON output. -/
def jsonEscape (s : String) : String := String.mk (s.data.map escChar).flatten

mutual

/-- Model of `JSON.stringify` (canonical: no whitespace, fields in order). -/
def jsonStringify : JVal → String
  | .jnull => "null"
  | .jbool true => "true"
  | .jbool false => "false"
  | .jnum n => toString n
  | .jstr s => "\"" ++ jsonEscape s ++ "\""
  | .jarr xs => "[" ++ stringifyItems xs ++ "]"
  | .jobj fs => String.mk [braceOpen] ++ stringifyFields fs ++ String.mk [braceClose]

/-- Comma-separated serialization of array elements. -/
def stringifyItems : List JVal → String
  | [] => ""
  | [x] => jsonStringify x
  | x :: y :: rest => jsonStringify x ++ "," ++ stringifyItems (y :: rest)

/-- Comma-separated serialization of object fields. -/
def stringifyFields : List (String × JVal) → String
  | [] => ""
  | [(k, v)] => "\"" ++ jsonEscape k ++ "\":" ++ jsonStringify v
  | (k, v) :: f :: rest =>
      "\"" ++ jsonEscape k ++ "\":" ++ jsonStringify v ++ "," ++ stringifyFields (f :: rest)

end

/-- Skip JSON whitespace. -/
def skipWs : List Char → List Char
  | [] => []
  | c :: rest =>
      if c = ' ' ∨ c = '\n' ∨ c = '\t' ∨ c = '\r' then skipWs rest else c :: rest

/-- Expect a fixed sequence of characters. -/
def expectChars : List Char → List Char → Option (List Char)
  | [], cs => some cs
  | p :: ps, c :: cs => if c = p then expectChars ps cs else none
  | _ :: _, [] => none

/-- Value of a hexadecimal digit. -/
def hexVal (c : Char) : Option Nat :=
  if '0' ≤ c ∧ c ≤ '9' then some (c.toNat - 48)
  else if 'a' ≤ c ∧ c ≤ 'f' then some (c.toNat - 87)
  else if 'A' ≤ c ∧ c ≤ 'F' then some (c.toNat - 55)
  else none

/-- Parse the body of a JSON string literal (after the opening quote). -/
def parseJStr (fuel : Nat) (cs : List Char) : Option (String × List Char) :=
  match fuel, cs with
  | 0, _ => none
  | _, [] => none
  | f + 1, c :: rest =>
      if c = '"' then some ("", rest)
      else if c = '\\' then
        match rest with
        | [] => none
        | e :: rest2 =>
            let cont := fun (ch : Char) (rem : List Char) =>
              (parseJStr f rem).map (fun p => (String.mk (ch :: p.1.data), p.2))
            if e = '"' then cont '"' rest2
            else if e = '\\' then cont '\\' rest2
            else if e = '/' then cont '/' rest2
            else if e = 'n' then cont '\n' rest2
            else if e = 't' then cont '\t' rest2
            else if e = 'r' then cont '\r' rest2
            else if e = 'b' then cont (Char.ofNat 8) rest2
            else if e = 'f' then cont (Char.ofNat 12) rest2
            else if e = 'u' then
              match rest2 with
              | a :: b :: c2 :: d :: rest3 =>
                  match hexVal a, hexVal b, hexVal c2, hexVal d with
                  | some ha, some hb, some hc, some hd =>
                      cont (Char.ofNat (((ha * 16 + hb) * 16 + hc) * 16 + hd)) rest3
                  | _, _, _, _ => none
              | _ => none
            else none
      else (parseJStr f rest).map (fun p => (String.mk (c :: p.1.data), p.2))

/-- Parse a nonempty run of decimal digits. -/
def parseDigits : List Char → Option (Nat × List Char)
  | [] => none
  | c :: rest =>
      if c.isDigit then
        match parseDigits rest with
        | some (n, r) =>
            -- fold the leading digit in front of the already-parsed run
            some (c.toNat - 48 |> fun d => d * 10 ^ (rest.length - r.length) + n, r)
        | none => some (c.toNat - 48, rest)
      else none

/-- Parse a JSON integer (the model restricts numbers to integers). -/
def parseJNum (cs : List Char) : Option (JVal × List Char) :=
  match cs with
  | '-' :: rest =>
      (parseDigits rest).map (fun p => (JVal.jnum (-(p.1 : Int)), p.2))
  | _ => (parseDigits cs).map (fun p => (JVal.jnum (p.1 : Int), p.2))

mutual

/-- Recursive-descent JSON parser (model of `JSON.parse`); `fuel` bounds the
recursion depth. -/
def parseJVal (fuel : Nat) (cs0 : List Char) : Option (JVal × List Char) :=
  match fuel with
  | 0 => none
  | f + 1 =>
      match skipWs cs0 with
      | [] => none
      | c :: rest =>
          if c = 'n' then (expectChars ['u', 'l', 'l'] rest).map (fun r => (.jnull, r))
          else if c = 't' then (expectChars ['r', 'u', 'e'] rest).map (fun r => (.jbool true, r))
          else if c = 'f' then (expectChars ['a', 'l', 's', 'e'] rest).map (fun r => (.jbool false, r))
          else if c = '"' then (parseJStr f rest).map (fun p => (.jstr p.1, p.2))
          else if c = '[' then
            match skipWs rest with
            | ']' :: r2 => some (.jarr [], r2)
            | r2 => (parseArrItems f r2).map (fun p => (.jarr p.1, p.2))
          else if c = braceOpen then
            match skipWs rest with
            | d :: r2 => if d = braceClose then some (.jobj [], r2)
                         else (parseObjItems f (d :: r2)).map (fun p => (.jobj p.1, p.2))
            | [] => none
          else if c = '-' ∨ c.isDigit then parseJNum (c :: rest)
          else none

/-- Parse `v ("," v)* "]"` for a nonempty JSON array. -/
def parseArrItems (fuel : Nat) (cs : List Char) : Option (List JVal × List Char) :=
  match fuel with
  | 0 => none
  | f + 1 =>
      match parseJVal f cs with
      | none => none
      | some (v, r) =>
          match skipWs r with
          | ',' :: r2 => (parseArrItems f r2).map (fun p => (v :: p.1, p.2))
          | ']' :: r2 => some ([v], r2)
          | _ => none

/-- Parse `"k" ":" v ("," "k" ":" v)* "}"` for a nonempty JSON object. -/
def parseObjItems (fuel : Nat) (cs : List Char) : Option (List (String × JVal) × List Char) :=
  match fuel with
  | 0 => none
  | f + 1 =>
      match skipWs cs with
      | '"' :: r =>
          match parseJStr f r with
          | none => none
          | some (k, r2) =>
              match skipWs r2 with
              | ':' :: r3 =>
                  match parseJVal f r3 with
                  | none => none
                  | some (v, r4) =>
                      match skipWs r4 with
                      | ',' :: r5 => (parseObjItems f r5).map (fun p => ((k, v) :: p.1, p.2))
                      | d :: r5 => if d = braceClose then some ([(k, v)], r5) else none
                      | [] => none
              | _ => none
      | _ => none

end

/-- Model of `JSON.parse`: `none` is a parse failure (a thrown exception). -/
def jsonParse (s : String) : Option JVal :=
  match parseJVal (s.length + 2) s.data with
  | some (v, rest) => if skipWs rest = [] then some v else none
  | none => none

/-! ## URL helper (`ensureUrl` / `upstreamUrlFor`, llmService.ts 275-300)

The WHATWG `URL` object is modelled by `UrlRec`/`parseUrl` for
`scheme://host[/path][?…|#…]` URLs.  The model performs no percent- or
case-normalization, so serializing a parsed URL returns the input text
whenever the input carried an explicit path; this matches the behaviour of
`new URL(x).toString()` on already-normalized URLs, the de-facto domain of
the `CUSTOM_LLM_URL` configuration value. -/

structure UrlRec where
  scheme : String
  host : String
  pathname : String
  searchHash : String
deriving DecidableEq, Repr

/-- Split `s` at the first `://`, returning the scheme text and the rest. -/
def breakScheme : List Char → Option (List Char × List Char)
  | [] => none
  | c :: rest =>
      if c = ':' then
        if rest.take 2 = ['/', '/'] then some ([], rest.drop 2) else none
      else (breakScheme rest).map (fun p => (c :: p.1, p.2))

/-- Characters that terminate the host part of a URL. -/
def hostEnd (c : Char) : Bool := c = '/' || c = '?' || c = '#'

/-- Characters that terminate the path part of a URL. -/
def pathEnd (c : Char) : Bool := c = '?' || c = '#'

/-- Model of `new URL(input)` (the `ensureUrl` helper returns `null` on
parse failure, modelled by `none`).  A URL without an explicit path gets
pathname `/`, as WHATWG does for special schemes. -/
def parseUrl (s : String) : Option UrlRec :=
  match breakScheme s.data with
  | none => none
  | some (sch, rest) =>
      if sch = [] ∨ ¬ sch.all Char.isAlpha then none
      else
        let host := rest.takeWhile (fun c => ! hostEnd c)
        let after := rest.dropWhile (fun c => ! hostEnd c)
        if host = [] then none
        else
          match after with
          | '/' :: _ =>
              some ⟨String.mk sch, String.mk host,
                    String.mk (after.takeWhile (fun c => ! pathEnd c)),
                    String.mk (after.dropWhile (fun c => ! pathEnd c))⟩
          | _ => some ⟨String.mk sch, String.mk host, "/", String.mk after⟩

/-- Model of `URL.prototype.toString`. -/
def urlToString (u : UrlRec) : String :=
  u.scheme ++ "://" ++ u.host ++ u.pathname ++ u.searchHash

/-- Model of `URL.prototype.origin`. -/
def urlOrigin (u : UrlRec) : String := u.scheme ++ "://" ++ u.host

/-- `upstreamUrlFor` from llmService.ts 283-300: derive the upstream endpoint
from the configured base URL and a target pathname. -/
def upstreamUrlFor (customLlmUrl : String) (pathname : String) : Option String :=
  if customLlmUrl = "" then none
  else
    match parseUrl customLlmUrl with
    | none => none
    | some url =>
        if url.pathname = "/" ∨ url.pathname = "" then
          some (urlToString { url with pathname := pathname })
        else if pathname = "/v1/chat/completions" then
          some (urlToString url)
        else
          some (urlToString { scheme := url.scheme, host := url.host,
                              pathname := pathname, searchHash := "" })

/-! ## JSON recovery (`extractProbablyJSON`, llmService.ts 426-474) -/

/-- JavaScript whitespace recognized by `String.prototype.trim` (the common
code points). -/
def jsWhitespace (c : Char) : Bool :=
  c = ' ' || c = '\t' || c = '\n' || c = '\r'
    || c = Char.ofNat 11 || c = Char.ofNat 12 || c = Char.ofNat 160
    || c = Char.ofNat 0xfeff || c = Char.ofNat 0x2028 || c = Char.ofNat 0x2029

/-- Model of `String.prototype.trim`. -/
def jsTrim (s : String) : String :=
  String.mk (((s.data.dropWhile jsWhitespace).reverse.dropWhile jsWhitespace).reverse)

/-- Does the trimmed candidate begin and end with a matching brace/bracket
pair (the `startsWith`/`endsWith` test of the source)? -/
def isWrapped (s : String) : Bool :=
  (s.data.head? = some braceOpen && s.data.getLast? = some braceClose)
  || (s.data.head? = some '[' && s.data.getLast? = some ']')

/-- Pick the scan start: the earlier of the first `{` and the first `[`,
with the matching close character (source lines 438-453). -/
def openerSelect (cs : List Char) : Option (Nat × Char × Char) :=
  match cs.findIdx? (· = braceOpen), cs.findIdx? (· = '[') with
  | some o, some a =>
      if o < a then some (o, braceOpen, braceClose) else some (a, '[', ']')
  | some o, none => some (o, braceOpen, braceClose)
  | none, some a => some (a, '[', ']')
  | none, none => none

/-- The depth-counting loop of `extractProbablyJSON` (source lines 457-471):
walk the characters, incrementing on the open character and decrementing on
the close character; when the depth returns to zero, `JSON.parse` the slice
consumed so far.  `acc` is the already-consumed slice. -/
def scanLoop (op cl : Char) : Nat → List Char → List Char → Option JVal
  | _, _, [] => none
  | depth, acc, c :: rest =>
      let depth' := if c = op then depth + 1 else if c = cl then depth - 1 else depth
      if depth' = 0 then jsonParse (String.mk (acc ++ [c]))
      else scanLoop op cl depth' (acc ++ [c]) rest

/-- `extractProbablyJSON` from llmService.ts 426-474. -/
def extractProbablyJSON (text : String) : Option JVal :=
  let s := jsTrim text
  if s = "" then none
  else
    match (if isWrapped s then jsonParse s else none) with
    | some v => some v
    | none =>
        match openerSelect s.data with
        | none => none
        | some (idx, op, cl) => scanLoop op cl 0 [] (s.data.drop idx)

/-- The `json_object` fix-up applied by `ProxyLlmService.createResponse`
(llmService.ts 1051-1054): on successful recovery the assistant text is
replaced by the canonical stringification of the recovered value. -/
def responsesJsonObjectFix (fmt : Option String) (assistantText : String) : String :=
  if fmt = some "json_object" then
    match extractProbablyJSON assistantText with
    | some parsed => jsonStringify parsed
    | none => assistantText
  else assistantText

/-- Claim-side rendering of the scan of §4.7: the number of characters up to
and including the position where the running depth first returns to zero. -/
def depthRun (op cl : Char) : Nat → List Char → Option Nat
  | _, [] => none
  | depth, c :: rest =>
      let depth' := if c = op then depth + 1 else if c = cl then depth - 1 else depth
      if depth' = 0 then some 1
      else (depthRun op cl depth' rest).map (· + 1)

/-- Claim-side scan: `JSON.parse` the slice ending where the depth first
returns to zero, `none` when it never does. -/
def claimScan (op cl : Char) (cs : List Char) : Option JVal :=
  match depthRun op cl 0 cs with
  | some n => jsonParse (String.mk (cs.take n))
  | none => none

/-! ## Upstream SSE event model

An upstream Chat-Completions SSE stream is a list of lines.  The consumers
(`readSSEAndAssembleChatCompletion` and `createAnthropicStreamFromOpenAI`)
ignore everything except `data:` lines; a `data:` payload is `[DONE]` or a
JSON object projected here onto the fields the two functions read.  A field
inspected with a `typeof x === "string"` test or a `??`/truthiness chain is
a `JsField`: `absent` covers `undefined`/`null`, `nonString` a present
non-null non-string value, `strVal` a string. -/

inductive JsField where
  | absent
  | nonString
  | strVal (s : String)
deriving Repr, DecidableEq

/-- `f.strOr d`: the string value of the field, or the default (the
`typeof f === "string" ? f : d` idiom; also `f || d` for string fields when
`d = ""`, since the empty string is falsy). -/
def JsField.strOr (f : JsField) (d : String) : String :=
  match f with
  | .strVal s => s
  | _ => d

structure FnCall where
  name : String
  arguments : String
deriving Repr, DecidableEq

/-- `ToolCall` from utils/responses.ts: `{id, type, function:{name, arguments}}`. -/
structure ToolCall where
  id : String
  type : String
  function : FnCall
deriving Repr, DecidableEq

/-- One entry of `delta.tool_calls` (a partial tool call).  `id`/`type` live
on the entry, `name`/`arguments` under `entry.function`; the record is
flattened.  `index` is `some i` when `tc.index` is a (natural) number. -/
structure DeltaToolFrag where
  index : Option Nat
  id : JsField
  type : JsField
  name : JsField
  arguments : JsField
deriving Repr, DecidableEq

/-- `choices[0].delta` as far as the code reads it. -/
structure UpDelta where
  content : JsField
  reasoning_content : JsField
  text : JsField
  tool_calls : Option (List DeltaToolFrag)
deriving Repr, DecidableEq

/-- `choices[0].message` of a full (non-delta) streamed object. -/
structure UpMessage where
  content : JsField
  tool_calls : Option (List ToolCall)
deriving Repr, DecidableEq

/-- One parsed upstream SSE JSON object, projected onto the read fields.
`model` is `some s` when a string model was present (the `if (obj?.model)`
truthiness test is modelled on strings); `usage` is the raw value. -/
structure UpEvent where
  model : Option String
  usage : Option JVal
  message : Option UpMessage
  delta : Option UpDelta
  finish_reason : JsField
deriving Repr

/-- JavaScript truthiness of a JSON value. -/
def jTruthy : JVal → Bool
  | .jnull => false
  | .jbool b => b
  | .jnum n => n ≠ 0
  | .jstr s => s ≠ ""
  | .jarr _ => true
  | .jobj _ => true

/-- One line of the upstream SSE stream. `junk` stands for every line the
consumers skip: non-`data:` lines, empty payloads and unparseable JSON. -/
inductive SseLine where
  | doneMark
  | ev (e : UpEvent)
  | junk
deriving Repr

def SseLine.isDone : SseLine → Bool
  | .doneMark => true
  | _ => false

/-- Concatenation of a list of strings (in order). -/
def strConcat : List String → String
  | [] => ""
  | s :: rest => s ++ strConcat rest

/-- The lines before the first `[DONE]` marker (assembly ends there). -/
def beforeDone (lines : List SseLine) : List SseLine :=
  lines.takeWhile (fun l => ! l.isDone)

/-- The parsed events of a line. -/
def lineEvents : SseLine → List UpEvent
  | .ev e => [e]
  | _ => []

/-- All parsed events before the first `[DONE]`. -/
def eventsOf (lines : List SseLine) : List UpEvent :=
  ((beforeDone lines).map lineEvents).flatten

/-! ## SSE assembler (`readSSEAndAssembleChatCompletion`, llmService.ts 476-583) -/

/-- The sparse `toolCalls` JS array: `none` entries are holes. -/
def getSlot : List (Option ToolCall) → Nat → Option ToolCall
  | [], _ => none
  | x :: _, 0 => x
  | _ :: rest, n + 1 => getSlot rest n

/-- `toolCalls[i] = tc`, extending the array with holes as JS does. -/
def setSlot : List (Option ToolCall) → Nat → ToolCall → List (Option ToolCall)
  | [], 0, tc => [some tc]
  | [], n + 1, tc => none :: setSlot [] n tc
  | _ :: rest, 0, tc => some tc :: rest
  | x :: rest, n + 1, tc => x :: setSlot rest n tc

/-- Append an argument fragment to a tool call. -/
def appendArgs (t : ToolCall) (s : String) : ToolCall :=
  { t with function := { t.function with arguments := t.function.arguments ++ s } }

/-- The slot initialized on first sight of an index (llmService.ts 562-571). -/
def initSlot (f : DeltaToolFrag) : ToolCall :=
  ⟨f.id.strOr "", f.type.strOr "function", ⟨f.name.strOr "", ""⟩⟩

/-- Processing of one `delta.tool_calls` entry (llmService.ts 559-577). -/
def asmFrag (slots : List (Option ToolCall)) (tc : DeltaToolFrag) : List (Option ToolCall) :=
  let index := tc.index.getD 0
  let slots1 :=
    match getSlot slots index with
    | some _ => slots
    | none => setSlot slots index (initSlot tc)
  match tc.arguments with
  | .strVal s =>
      match getSlot slots1 index with
      | some t => setSlot slots1 index (appendArgs t s)
      | none => slots1
  | _ => slots1

/-- Assembler state: the mutable locals of the read loop. -/
structure AsmState where
  assistantText : String
  model : String
  usage : Option JVal
  slots : List (Option ToolCall)

/-- `if (obj?.model) model = obj.model; if (obj?.usage) usage = obj.usage`. -/
def asmUpdateMeta (st : AsmState) (e : UpEvent) : AsmState :=
  let st1 :=
    match e.model with
    | some m => if m ≠ "" then { st with model := m } else st
    | none => st
  match e.usage with
  | some u => if jTruthy u then { st1 with usage := some u } else st1
  | none => st1

/-- Processing of one delta (llmService.ts 546-578): append `content`,
`reasoning_content` and `text` string fragments to the assistant text in
that order, then fold the tool-call fragments. -/
def asmDelta (st : AsmState) (d : UpDelta) : AsmState :=
  let t1 := match d.content with | .strVal s => st.assistantText ++ s | _ => st.assistantText
  let t2 := match d.reasoning_content with | .strVal s => t1 ++ s | _ => t1
  let t3 := match d.text with | .strVal s => t2 ++ s | _ => t2
  let slots :=
    match d.tool_calls with
    | some frags => frags.foldl asmFrag st.slots
    | none => st.slots
  { st with assistantText := t3, slots := slots }

/-- Delta processing of one event. -/
def asmEventDelta (st : AsmState) (e : UpEvent) : AsmState :=
  match e.delta with
  | some d => asmDelta st d
  | none => st

/-- The assembled result `{assistantText, toolCalls, model, usage}`. -/
structure Assembled where
  assistantText : String
  toolCalls : List ToolCall
  model : String
  usage : Option JVal
deriving Repr

/-- The return value: empty slots are filtered (`toolCalls.filter(Boolean)`). -/
def asmFinish (st : AsmState) : Assembled :=
  ⟨st.assistantText, st.slots.filterMap id, st.model, st.usage⟩

/-- `choices[0].message.content` when it is a string. -/
def fullMsgContent (e : UpEvent) : Option String :=
  match e.message with
  | some m => match m.content with | .strVal s => some s | _ => none
  | none => none

/-- `choices[0].message.tool_calls` when it is an array. -/
def fullMsgToolCalls (e : UpEvent) : Option (List ToolCall) :=
  e.message.bind (·.tool_calls)

/-- The line loop of `readSSEAndAssembleChatCompletion`: `[DONE]` returns the
accumulated result; a full message object sets the text, and returns at once
(adopting its `tool_calls`, unfiltered) when they are an array; otherwise the
delta is processed.  Stream end without `[DONE]` also returns the
accumulated result. -/
def readSSEGo : List SseLine → AsmState → Assembled
  | [], st => asmFinish st
  | .doneMark :: _, st => asmFinish st
  | .junk :: rest, st => readSSEGo rest st
  | .ev e :: rest, st =>
      let st1 := asmUpdateMeta st e
      match fullMsgContent e with
      | some s =>
          match fullMsgToolCalls e with
          | some tcs => ⟨s, tcs, st1.model, st1.usage⟩
          | none => readSSEGo rest { st1 with assistantText := s }
      | none => readSSEGo rest (asmEventDelta st1 e)

/-- `readSSEAndAssembleChatCompletion` on a stream of lines. -/
def readSSE (lines : List SseLine) (requestedModel : String) : Assembled :=
  readSSEGo lines ⟨"", requestedModel, none, []⟩

/-! ## Buffered JSON parser (`parseUpstreamChatCompletionJson`, llmService.ts 258-273) -/

/-- Property access on a JSON object value. -/
def jGet (j : JVal) (k : String) : Option JVal :=
  match j with
  | .jobj fs => fs.lookup k
  | _ => none

/-- Property access returning a string value only. -/
def jGetStr (j : JVal) (k : String) : Option String :=
  match jGet j k with
  | some (.jstr s) => some s
  | _ => none

/-- `choices[0]` of a JSON response. -/
def jChoice0 (j : JVal) : Option JVal :=
  match jGet j "choices" with
  | some (.jarr (c :: _)) => some c
  | _ => none

/-- The TS source casts `message.tool_calls` to `ToolCall[]` without
validation; the model decodes each entry with the record's defaults. -/
def decodeToolCall (j : JVal) : ToolCall :=
  ⟨(jGetStr j "id").getD "", (jGetStr j "type").getD "",
   ⟨(match jGet j "function" with | some f => (jGetStr f "name").getD "" | none => ""),
    (match jGet j "function" with | some f => (jGetStr f "arguments").getD "" | none => "")⟩⟩

/-- `parseUpstreamChatCompletionJson` (llmService.ts 258-273). -/
def parseUpstreamChatCompletionJson (j : JVal) (requestedModel : String) : Assembled :=
  let model := (jGetStr j "model").getD requestedModel
  let usage := jGet j "usage"
  let message := (jChoice0 j).bind (jGet · "message")
  let assistantText :=
    match message with
    | some m => match jGet m "content" with | some (.jstr s) => s | _ => ""
    | none => ""
  let toolCalls :=
    match message.bind (jGet · "tool_calls") with
    | some (.jarr items) => items.map decodeToolCall
    | _ => []
  ⟨assistantText, toolCalls, model, usage⟩

/-! ## Response builders (`utils/responses.ts`, file part_000) -/

structure ChatMessageOut where
  role : String
  content : String
deriving Repr, DecidableEq

structure ChatChoiceOut where
  index : Nat
  message : ChatMessageOut
  finish_reason : String
deriving Repr, DecidableEq

/-- `ChatCompletionResponse` of utils/responses.ts (usage is always `null`;
the assistant message has no `tool_calls` or `reasoning_content` field). -/
structure ChatCompletionResponse where
  id : String
  object : String
  created : Nat
  model : String
  choices : List ChatChoiceOut
  usage : Option JVal
deriving Repr

/-- `buildChatCompletionResponse` (responses.ts 261-278); `safeRandomId` is
modelled by passing the uuid, `nowSeconds` by passing `now`. -/
def buildChatCompletionResponse (idPre model messageContent : String)
    (uuid : String) (now : Nat) : ChatCompletionResponse :=
  { id := idPre ++ "-" ++ uuid
    object := "chat.completion"
    created := now
    model := model
    choices := [⟨0, ⟨"assistant", messageContent⟩, "stop"⟩]
    usage := none }

/-- The final lines of `ProxyLlmService.createChatCompletion` (llmService.ts
1143-1145): the buffered envelope built from the assembled result. -/
def chatCompletionOutOf (assembled : Assembled) (reqModel uuid : String)
    (now : Nat) : ChatCompletionResponse :=
  buildChatCompletionResponse "chatcmpl"
    (if assembled.model = "" then reqModel else assembled.model)
    assembled.assistantText uuid now

structure RespContentPart where
  text : String
deriving Repr, DecidableEq

/-- One item of the Responses `output` array: the single message item (its
`type:"message"`, `status:"completed"`, `role:"assistant"` and the parts'
`type:"output_text"` are constant in the source) or a function-call item. -/
inductive RespOutputItem where
  | message (id : String) (content : List RespContentPart)
  | functionCall (call_id : String) (name : String) (arguments : String)
deriving Repr, DecidableEq

/-- The request fields `buildResponsesProxyOutput` copies into the envelope
(`ResponsesProxyOutputRequest`).  Fields never inspected are `JVal`s. -/
structure RespRequestEcho where
  instructions : Option String
  max_output_tokens : Option Int
  previous_response_id : Option String
  store : Bool
  temperature : JVal
  text : JVal
  tool_choice : JVal
  tools : List JVal
  top_p : JVal
  parallel_tool_calls : Bool
  usage : Option JVal
  metadata : JVal
deriving Repr

/-- `ResponseResponse` of responses.ts (constant `error:null`,
`incomplete_details:null`, `reasoning`, `user:null` fields elided). -/
structure ResponseResponse where
  id : String
  object : String
  created_at : Nat
  status : String
  instructions : Option String
  max_output_tokens : Option Int
  model : String
  output : List RespOutputItem
  parallel_tool_calls : Bool
  previous_response_id : Option String
  store : Bool
  temperature : JVal
  text : JVal
  tool_choice : JVal
  tools : List JVal
  top_p : JVal
  truncation : String
  usage : Option JVal
  metadata : JVal
  output_text : String
deriving Repr

/-- `buildResponsesProxyOutput` (responses.ts 142-202). -/
def buildResponsesProxyOutput (model assistantText : String)
    (toolCalls : List ToolCall) (request : RespRequestEcho)
    (respId msgId : String) (createdAt : Nat) : ResponseResponse :=
  let content : List RespContentPart :=
    if assistantText = "" then [] else [⟨assistantText⟩]
  { id := respId
    object := "response"
    created_at := createdAt
    status := "completed"
    instructions := request.instructions
    max_output_tokens := request.max_output_tokens
    model := model
    output := .message msgId content ::
      toolCalls.map (fun tc => .functionCall tc.id tc.function.name tc.function.arguments)
    parallel_tool_calls := request.parallel_tool_calls
    previous_response_id := request.previous_response_id
    store := request.store
    temperature := request.temperature
    text := request.text
    tool_choice := request.tool_choice
    tools := request.tools
    top_p := request.top_p
    truncation := "disabled"
    usage := request.usage
    metadata := request.metadata
    output_text := assistantText }

/-! ## `ProxyLlmService.createChatCompletion` (llmService.ts 1077-1146)

The upstream POST is an effect; its outcome is passed in as `UpstreamResp`.
The branch on the response content type is modelled by the payload
constructor (`sse` for a `text/event-stream` body, `json` otherwise). -/

structure InPart where
  ptype : JsField
  text : JsField
deriving Repr, DecidableEq

/-- The `content` of an inbound chat message: a string, an array of parts,
or anything else (left untouched). -/
inductive InContent where
  | cstr (s : String)
  | carr (parts : List InPart)
  | cother
deriving Repr, DecidableEq

structure ChatInMsg where
  role : String
  content : InContent
deriving Repr, DecidableEq

/-- Message normalization of `createChatCompletion` (llmService.ts
1090-1098): flatten array content to the concatenated `text` of the parts
whose `type` is `"text"`. -/
def normalizeCCMsg (m : ChatInMsg) : ChatInMsg :=
  match m.content with
  | .carr parts =>
      { m with content := .cstr (strConcat
          ((parts.filter (fun p => p.ptype = .strVal "text")).map (fun p => p.text.strOr ""))) }
  | _ => m

/-- The request body of `POST /v1/chat/completions` as far as the service
reads it.  `messages` is `some` when the field is an array; `stream` models
a boolean (or absent) `stream` field. -/
structure ChatCCBody where
  model : Option String
  messages : Option (List ChatInMsg)
  stream : Option Bool
deriving Repr

inductive UpstreamPayload where
  | sse (lines : List SseLine)
  | json (j : JVal)
deriving Repr

/-- Outcome of the upstream POST: HTTP ok flag and the body. -/
structure UpstreamResp where
  ok : Bool
  payload : UpstreamPayload
deriving Repr

/-- The assembled result produced from the upstream response (llmService.ts
1131-1141). -/
def assembleUpstream (up : UpstreamResp) (model : String) : Assembled :=
  match up.payload with
  | .sse lines => readSSE lines model
  | .json j => parseUpstreamChatCompletionJson j model

/-- `ProxyLlmService.createChatCompletion`: validation, upstream call and
the buffered envelope.  Throws are modelled by `Except.error`. -/
def createChatCompletion (customLlmUrl defaultModel : String) (body : ChatCCBody)
    (up : UpstreamResp) (uuid : String) (now : Nat) :
    Except String ChatCompletionResponse :=
  let model := body.model.getD defaultModel
  match body.messages with
  | none => .error "messages[] is required"
  | some msgs =>
      if msgs.length = 0 then .error "messages[] is required"
      else
        match upstreamUrlFor customLlmUrl "/v1/chat/completions" with
        | none => .error "CUSTOM_LLM_URL is not set/invalid"
        | some _ =>
            if ! up.ok then .error "Upstream error"
            else
              let assembled := assembleUpstream up model
              .ok (chatCompletionOutOf assembled model uuid now)

/-- What the route handler writes: a JSON body or a passed-through SSE
stream (apiController.ts 62-93 checks `result instanceof ReadableStream`). -/
inductive ChatApiResult where
  | buffered (r : ChatCompletionResponse)
  | streamed (lines : List String)
deriving Repr

/-- The `/v1/chat/completions` endpoint in proxy mode: the service result
wrapped by the controller. -/
def chatCompletionsEndpoint (customLlmUrl defaultModel : String) (body : ChatCCBody)
    (up : UpstreamResp) (uuid : String) (now : Nat) :
    Except String ChatApiResult :=
  match createChatCompletion customLlmUrl defaultModel body up uuid now with
  | .ok r => .ok (.buffered r)
  | .error e => .error e

/-! ## Anthropic stream projector (`createAnthropicStreamFromOpenAI`,
llmService.ts 720-911)

The emitted SSE frames are modelled by `AEvent` (the JSON payload of each
frame, minus constant fields).  `[DONE]` data lines are skipped by this
consumer (llmService.ts 787), so they are not terminators here. -/

inductive ABlock where
  | textBlock
  | toolUse (id name : String)
deriving Repr, DecidableEq

inductive ADelta where
  | textDelta (s : String)
  | inputJsonDelta (pj : String)
deriving Repr, DecidableEq

inductive AEvent where
  | messageStart (mdl : String)
  | blockStart (i : Nat) (b : ABlock)
  | blockDelta (i : Nat) (d : ADelta)
  | blockStop (i : Nat)
  | messageDelta (stopReason : String)
  | messageStop
deriving Repr, DecidableEq

/-- A `toolCallsInProgress` map entry. -/
structure ToolProg where
  id : String
  name : String
  arguments : String
deriving Repr, DecidableEq

/-- The state locals of the projector. `inProgress` is the insertion-ordered
`Map`, `closed` the `closedToolCallIndices` set. -/
structure ProjState where
  sentMessageStart : Bool
  contentBlockStarted : Bool
  contentBlockStopped : Bool
  currentToolCallIndex : Int
  inProgress : List (Nat × ToolProg)
  closed : List Nat
deriving Repr, DecidableEq

def mapHas (l : List (Nat × ToolProg)) (i : Nat) : Bool :=
  l.any (fun p => p.1 = i)

def mapGet (l : List (Nat × ToolProg)) (i : Nat) : Option ToolProg :=
  (l.find? (fun p => p.1 = i)).map (·.2)

/-- `Map.prototype.set`: replace in place or append (insertion order). -/
def mapSet (l : List (Nat × ToolProg)) (i : Nat) (v : ToolProg) : List (Nat × ToolProg) :=
  if mapHas l i then l.map (fun p => if p.1 = i then (i, v) else p) else l ++ [(i, v)]

/-- `delta.content ?? delta.reasoning_content`, then the
`typeof textContent === "string"` test (llmService.ts 819-820). -/
def projTextContent (d : UpDelta) : Option String :=
  match d.content with
  | .strVal s => some s
  | .nonString => none
  | .absent => match d.reasoning_content with | .strVal s => some s | _ => none

/-- Text handling of one delta (llmService.ts 820-836): open the text block
at index 0 on first sight, emit a `text_delta` for nonempty text. -/
def projText (st : ProjState) (d : UpDelta) : ProjState × List AEvent :=
  match projTextContent d with
  | none => (st, [])
  | some s =>
      let p :=
        if st.contentBlockStarted then (st, ([] : List AEvent))
        else ({ st with contentBlockStarted := true }, [AEvent.blockStart 0 .textBlock])
      if s ≠ "" then (p.1, p.2 ++ [AEvent.blockDelta 0 (.textDelta s)])
      else p

/-- Handling of one `delta.tool_calls` entry (llmService.ts 840-879). -/
def projFrag (st : ProjState) (tc : DeltaToolFrag) : ProjState × List AEvent :=
  let tcIndex := tc.index.getD 0
  let p :=
    if mapHas st.inProgress tcIndex then (st, ([] : List AEvent))
    else
      let q :=
        if st.contentBlockStarted ∧ ¬ st.contentBlockStopped = true
            ∧ st.currentToolCallIndex = -1 then
          ({ st with contentBlockStopped := true }, [AEvent.blockStop 0])
        else (st, ([] : List AEvent))
      ({ q.1 with currentToolCallIndex := (tcIndex : Int),
                  inProgress := mapSet q.1.inProgress tcIndex
                    ⟨tc.id.strOr "", tc.name.strOr "", ""⟩ },
       q.2 ++ [AEvent.blockStart (tcIndex + 1) (.toolUse (tc.id.strOr "") (tc.name.strOr ""))])
  match tc.arguments with
  | .strVal s =>
      if s ≠ "" then
        ({ p.1 with inProgress :=
            (match mapGet p.1.inProgress tcIndex with
             | some t => mapSet p.1.inProgress tcIndex { t with arguments := t.arguments ++ s }
             | none => p.1.inProgress) },
         p.2 ++ [AEvent.blockDelta (tcIndex + 1) (.inputJsonDelta s)])
      else p
  | _ => p

/-- Fold `projFrag` over the entries of `delta.tool_calls`. -/
def projFrags (st : ProjState) (frags : List DeltaToolFrag) : ProjState × List AEvent :=
  frags.foldl (fun acc tc =>
    let r := projFrag acc.1 tc
    (r.1, acc.2 ++ r.2)) (st, [])

/-- Handling of one truthy delta. -/
def projDelta (st : ProjState) (d : UpDelta) : ProjState × List AEvent :=
  let p := projText st d
  match d.tool_calls with
  | some frags =>
      let q := projFrags p.1 frags
      (q.1, p.2 ++ q.2)
  | none => p

/-- Finish-reason mapping (llmService.ts 899-901). -/
def stopReasonMap (fr : String) : String :=
  if fr = "length" then "max_tokens"
  else if fr = "tool_calls" then "tool_use"
  else "end_turn"

/-- Closure sequence (llmService.ts 749-769 and 884-906): stop the text
block if open, stop every unclosed tool block in insertion order, then
`message_delta` and `message_stop`. -/
def projClosure (st : ProjState) (stopReason : String) : List AEvent :=
  (if st.contentBlockStarted ∧ ¬ st.contentBlockStopped = true then [AEvent.blockStop 0] else [])
  ++ ((st.inProgress.filter (fun p => ! st.closed.contains p.1)).map
        (fun p => AEvent.blockStop (p.1 + 1)))
  ++ [AEvent.messageDelta stopReason, AEvent.messageStop]

/-- A truthy `choices[0].finish_reason`. -/
def finishTruthy (e : UpEvent) : Option String :=
  match e.finish_reason with
  | .strVal s => if s = "" then none else some s
  | _ => none

/-- Processing of one parsed upstream event: `message_start` on the first
parsed event, delta handling, then termination when a truthy finish reason
is present (the `Bool` is the termination flag). -/
def projEvent (st : ProjState) (e : UpEvent) (mdl : String) :
    ProjState × List AEvent × Bool :=
  let p :=
    if st.sentMessageStart then (st, ([] : List AEvent))
    else ({ st with sentMessageStart := true },
          [AEvent.messageStart (match e.model with
            | some m => if m = "" then mdl else m
            | none => mdl)])
  let q :=
    match e.delta with
    | some d =>
        let r := projDelta p.1 d
        (r.1, p.2 ++ r.2)
    | none => p
  match finishTruthy e with
  | some fr => (q.1, q.2 ++ projClosure q.1 (stopReasonMap fr), true)
  | none => (q.1, q.2, false)

/-- The projector run: final state and the emitted event sequence.  Upstream
EOF without a finish reason performs the closure with `end_turn`; a finish
reason terminates at once (remaining lines are never read). -/
def projRun (mdl : String) : List SseLine → ProjState → ProjState × List AEvent
  | [], st => (st, projClosure st "end_turn")
  | .doneMark :: rest, st => projRun mdl rest st
  | .junk :: rest, st => projRun mdl rest st
  | .ev e :: rest, st =>
      match projEvent st e mdl with
      | (st', evs, true) => (st', evs)
      | (st', evs, false) =>
          let r := projRun mdl rest st'
          (r.1, evs ++ r.2)

def projInit : ProjState := ⟨false, false, false, -1, [], []⟩

/-- The event stream `createAnthropicStreamFromOpenAI` emits for an upstream
stream of lines. -/
def projAnthropic (lines : List SseLine) (mdl : String) : List AEvent :=
  (projRun mdl lines projInit).2

/-! ## Validity of an Anthropic event sequence (the property of C1)

A checker automaton: exactly one `message_start` first; then content-block
events where every `content_block_start` uses a strictly larger index than
every earlier one, every `content_block_delta(i)`/`content_block_stop(i)`
falls between `content_block_start(i)` and the single `content_block_stop(i)`;
all blocks closed before a single `message_delta` followed by a final
`message_stop`. -/

inductive ChkPhase where
  | expectStart
  | inBlocks
  | afterMessageDelta
  | accepted
  | rejected
deriving Repr, DecidableEq

structure ChkState where
  phase : ChkPhase
  openBlocks : List Nat
  maxStarted : Option Nat
deriving Repr, DecidableEq

def chkStep (st : ChkState) (e : AEvent) : ChkState :=
  match st.phase, e with
  | .expectStart, .messageStart _ => { st with phase := .inBlocks }
  | .inBlocks, .blockStart i _ =>
      if (match st.maxStarted with | none => true | some m => decide (m < i)) = true then
        { st with openBlocks := i :: st.openBlocks, maxStarted := some i }
      else { st with phase := .rejected }
  | .inBlocks, .blockDelta i _ =>
      if st.openBlocks.contains i then st else { st with phase := .rejected }
  | .inBlocks, .blockStop i =>
      if st.openBlocks.contains i then { st with openBlocks := st.openBlocks.erase i }
      else { st with phase := .rejected }
  | .inBlocks, .messageDelta _ =>
      if st.openBlocks = [] then { st with phase := .afterMessageDelta }
      else { st with phase := .rejected }
  | .afterMessageDelta, .messageStop => { st with phase := .accepted }
  | _, _ => { st with phase := .rejected }

def chkInit : ChkState := ⟨.expectStart, [], none⟩

/-- Is `evs` a valid Anthropic event sequence? -/
def validAnthropic (evs : List AEvent) : Bool :=
  match (evs.foldl chkStep chkInit).phase with
  | .accepted => true
  | _ => false

/-! ### The stream conditions of the amended C1 -/

/-- All parsed events of the stream (the projector does not stop at
`[DONE]`). -/
def allEventsOf (lines : List SseLine) : List UpEvent :=
  (lines.map lineEvents).flatten

/-- Scanner for the amended C1's stream conditions: no text/reasoning delta
at or after the first tool-call fragment, and tool indices first appearing
in strictly ascending order. -/
structure ScanState where
  seenTool : Bool
  seenIdxs : List Nat
  ok : Bool
deriving Repr, DecidableEq

def scanFrag (ss : ScanState) (f : DeltaToolFrag) : ScanState :=
  let i := f.index.getD 0
  if ss.seenIdxs.contains i then { ss with seenTool := true }
  else if ss.seenIdxs.all (fun j => j < i) then
    { seenTool := true, seenIdxs := ss.seenIdxs ++ [i], ok := ss.ok }
  else { ss with seenTool := true, ok := false }

def scanEvent (ss : ScanState) (e : UpEvent) : ScanState :=
  match e.delta with
  | none => ss
  | some d =>
      let ss1 :=
        match projTextContent d with
        | some _ => if ss.seenTool then { ss with ok := false } else ss
        | none => ss
      match d.tool_calls with
      | some frags => frags.foldl scanFrag ss1
      | none => ss1

def scanInit : ScanState := ⟨false, [], true⟩

/-- The stream conditions of the amended C1. -/
def streamOK (lines : List SseLine) : Bool :=
  ((allEventsOf lines).foldl scanEvent scanInit).ok

/-! ## Checker-side bookkeeping for the C1 induction -/

/-- The keys of the `toolCallsInProgress` map, in insertion order. -/
def keysOf (l : List (Nat × ToolProg)) : List Nat := l.map Prod.fst

/-- The open content blocks of a projector state, newest first: the tool
blocks in reverse insertion order, then the text block if it is open. -/
def openListOf (st : ProjState) : List Nat :=
  ((keysOf st.inProgress).map (fun k => k + 1)).reverse
    ++ (if st.contentBlockStarted ∧ ¬ st.contentBlockStopped = true then [0] else [])

/-- The block-opening half of `projFrag` (llmService.ts 840-866). -/
def fragOpen (st : ProjState) (tc : DeltaToolFrag) : ProjState × List AEvent :=
  let tcIndex := tc.index.getD 0
  if mapHas st.inProgress tcIndex then (st, [])
  else
    let q :=
      if st.contentBlockStarted ∧ ¬ st.contentBlockStopped = true
          ∧ st.currentToolCallIndex = -1 then
        ({ st with contentBlockStopped := true }, [AEvent.blockStop 0])
      else (st, ([] : List AEvent))
    ({ q.1 with currentToolCallIndex := (tcIndex : Int),
                inProgress := mapSet q.1.inProgress tcIndex
                  ⟨tc.id.strOr "", tc.name.strOr "", ""⟩ },
     q.2 ++ [AEvent.blockStart (tcIndex + 1) (.toolUse (tc.id.strOr "") (tc.name.strOr ""))])

/-- The argument-accumulation half of `projFrag` (llmService.ts 868-878). -/
def fragArgs (st : ProjState) (tcIndex : Nat) (args : JsField) : ProjState × List AEvent :=
  match args with
  | .strVal s =>
      if s ≠ "" then
        ({ st with inProgress :=
            (match mapGet st.inProgress tcIndex with
             | some t => mapSet st.inProgress tcIndex { t with arguments := t.arguments ++ s }
             | none => st.inProgress) },
         [AEvent.blockDelta (tcIndex + 1) (.inputJsonDelta s)])
      else (st, [])
  | _ => (st, [])

/-- The simulation invariant of the C1 proof, tying a projector state to the
checker state reached by the events emitted so far and to the scanner state
over the upstream events consumed so far. -/
structure ChkInv (st : ProjState) (ck : ChkState) (ss : ScanState) : Prop where
  phase : ck.phase = (if st.sentMessageStart = true then ChkPhase.inBlocks
                      else ChkPhase.expectStart)
  blocks : ck.openBlocks = openListOf st
  closedNil : st.closed = []
  curIff : st.currentToolCallIndex = -1 ↔ keysOf st.inProgress = []
  maxChar : ck.maxStarted = none ∨ ck.maxStarted = some 0
      ∨ ∃ k ∈ keysOf st.inProgress, ck.maxStarted = some (k + 1)
  maxNone : st.contentBlockStarted = false → keysOf st.inProgress = [] →
      ck.maxStarted = none
  stopStart : st.contentBlockStopped = true → st.contentBlockStarted = true
  stopTool : st.contentBlockStopped = true → keysOf st.inProgress ≠ []
  toolStop : keysOf st.inProgress ≠ [] → st.contentBlockStarted = true →
      st.contentBlockStopped = true
  idxs : ss.seenIdxs = keysOf st.inProgress
  seenTool : ss.seenTool = true ↔ keysOf st.inProgress ≠ []
  nodup : (keysOf st.inProgress).Nodup

/-! ## Map evolution of the projector (for C10) -/

/-- Append to the accumulated argument string of a map entry. -/
def progAppend (t : ToolProg) (s : String) : ToolProg :=
  { t with arguments := t.arguments ++ s }

/-- The effect of one tool-call fragment on the `toolCallsInProgress` map
(the state part of `projFrag`). -/
def fragStep (l : List (Nat × ToolProg)) (f : DeltaToolFrag) : List (Nat × ToolProg) :=
  let i := f.index.getD 0
  let l1 := if mapHas l i then l else mapSet l i ⟨f.id.strOr "", f.name.strOr "", ""⟩
  match f.arguments with
  | .strVal s =>
      if s ≠ "" then
        (match mapGet l1 i with
         | some t => mapSet l1 i (progAppend t s)
         | none => l1)
      else l1
  | _ => l1

/-- Structural-recursion form of `projFrags` (same fold, explicit recursion). -/
def projFragsGo : ProjState → List DeltaToolFrag → ProjState × List AEvent
  | st, [] => (st, [])
  | st, g :: gs =>
      let p := projFrag st g
      let r := projFragsGo p.1 gs
      (r.1, p.2 ++ r.2)

/-! ## Spec-side stream observations (claim renderings) -/

/-- The `delta.content` and `delta.text` string fragments of one event. -/
def evContentText (e : UpEvent) : String :=
  match e.delta with
  | some d =>
      (match d.content with | .strVal s => s | _ => "")
        ++ (match d.text with | .strVal s => s | _ => "")
  | none => ""

/-- The `delta.content`, `delta.reasoning_content` and `delta.text` string
fragments of one event, in the source's append order. -/
def evMergedText (e : UpEvent) : String :=
  match e.delta with
  | some d =>
      (match d.content with | .strVal s => s | _ => "")
        ++ (match d.reasoning_content with | .strVal s => s | _ => "")
        ++ (match d.text with | .strVal s => s | _ => "")
  | none => ""

/-- C2 as written: the concatenation, in arrival order, of all
`delta.content` and `delta.text` fragments (reasoning excluded). -/
def claimedAssistantText (lines : List SseLine) : String :=
  strConcat ((eventsOf lines).map evContentText)

/-- Amended C2: the concatenation including `delta.reasoning_content`. -/
def mergedAssistantText (lines : List SseLine) : String :=
  strConcat ((eventsOf lines).map evMergedText)

/-- Does the event carry a full (non-delta) `message.content` string? -/
def evHasFullContent (e : UpEvent) : Bool := (fullMsgContent e).isSome

/-- No event before `[DONE]` carries a full message content string. -/
def noFullMessage (lines : List SseLine) : Bool :=
  (eventsOf lines).all (fun e => ! evHasFullContent e)

/-- The `delta.tool_calls` entries of one event. -/
def fragsOfEvent (e : UpEvent) : List DeltaToolFrag :=
  match e.delta with
  | some d => d.tool_calls.getD []
  | none => []

/-- All tool-call fragments before `[DONE]`, in arrival order. -/
def allFragsOf (lines : List SseLine) : List DeltaToolFrag :=
  ((eventsOf lines).map fragsOfEvent).flatten

/-- The fragments selecting slot `i` (`tc.index`, defaulting to 0). -/
def fragsAt (i : Nat) (lines : List SseLine) : List DeltaToolFrag :=
  (allFragsOf lines).filter (fun f => f.index.getD 0 = i)

/-- The `function.arguments` string of a fragment (empty when absent). -/
def fragArg (f : DeltaToolFrag) : String := f.arguments.strOr ""

/-- The claimed final arguments of slot `i`: the concatenation, in arrival
order, of the argument strings of the fragments with index `i`. -/
def argsConcatAt (i : Nat) (lines : List SseLine) : String :=
  strConcat ((fragsAt i lines).map fragArg)

/-- The slot array obtained by folding every fragment (the claim-side view
of the assembler's slot state). -/
def finalSlots (lines : List SseLine) : List (Option ToolCall) :=
  (allFragsOf lines).foldl asmFrag []

/-- The last truthy `finish_reason` before `[DONE]` (the spec's "captured
upstream finishReason"). -/
def lastFinish (lines : List SseLine) : Option String :=
  (eventsOf lines).foldl
    (fun acc e => match finishTruthy e with | some s => some s | none => acc) none

/-- C3 as written: the captured finish reason, defaulting to `"stop"`. -/
def claimedFinishReason (lines : List SseLine) : String :=
  (lastFinish lines).getD "stop"

/-- The events the projector actually processes: all parsed events up to and
including the first with a truthy finish reason. -/
def processedEvents : List SseLine → List UpEvent
  | [] => []
  | .doneMark :: rest => processedEvents rest
  | .junk :: rest => processedEvents rest
  | .ev e :: rest =>
      e :: (if (finishTruthy e).isSome then [] else processedEvents rest)

/-- The fragments the projector processes. -/
def projAllFrags (lines : List SseLine) : List DeltaToolFrag :=
  ((processedEvents lines).map fragsOfEvent).flatten

/-- The projector-processed fragments selecting upstream index `i`. -/
def projFragsAt (i : Nat) (lines : List SseLine) : List DeltaToolFrag :=
  (projAllFrags lines).filter (fun f => f.index.getD 0 = i)

/-- The claimed accumulated arguments of the projector's block `i`. -/
def projArgsAt (i : Nat) (lines : List SseLine) : String :=
  strConcat ((projFragsAt i lines).map fragArg)

/-! ## Request normalizers and the Anthropic response builder (for C6) -/

/-- A canonical Chat-Completions message (`ChatCompletionsMessage`). -/
structure CanMsg where
  role : String
  content : Option String
  tool_calls : Option (List ToolCall)
  tool_call_id : Option String
deriving Repr, DecidableEq

/-- Model of JavaScript `String(v)` on a JSON value. -/
def jsString : JVal → String
  | .jnull => "null"
  | .jbool true => "true"
  | .jbool false => "false"
  | .jnum n => toString n
  | .jstr s => s
  | .jarr _ => ""
  | .jobj _ => "[object Object]"

/-- One item of a Responses `input` array, as far as `inputToMessages`
dispatches on it.  String-valued fields read through `String(x ?? "")` are
modelled as `Option String`. -/
inductive RItemContent where
  | rstr (s : String)
  | rarr (parts : List InPart)
  | rnone
  | rother (v : JVal)
deriving Repr

structure RespItem where
  itype : Option String
  role : Option String
  call_id : Option String
  name : Option String
  arguments : JsField
  output : Option JVal
  content : RItemContent
deriving Repr

/-- The `input` field of a Responses request. -/
inductive RespInput where
  | istr (s : String)
  | iarr (items : List RespItem)
  | iother (v : Option JVal)
deriving Repr

/-- The fallback `String(m?.content ?? m ?? "")` for unknown item shapes
(approximated for array/object contents). -/
def fallbackContent (m : RespItem) : String :=
  match m.content with
  | .rstr s => s
  | .rother v => jsString v
  | .rnone => "[object Object]"
  | .rarr _ => ""

/-- Dispatch of one input item (llmService.ts 368-421). -/
def itemToMsgs (m : RespItem) : List CanMsg :=
  if m.itype = some "function_call" then
    [⟨"assistant", some "",
      some [⟨m.call_id.getD "", "function", ⟨m.name.getD "", m.arguments.strOr ""⟩⟩], none⟩]
  else if m.itype = some "function_call_output" then
    [⟨"tool",
      some (match m.output with
        | some (.jstr s) => s
        | some j => jsonStringify j
        | none => jsonStringify .jnull),
      none, some (m.call_id.getD "")⟩]
  else if m.itype = some "message"
      ∨ (match m.role with | some r => decide (r ≠ "") | none => false) = true then
    let role := m.role.getD "user"
    match m.content with
    | .rstr s => [⟨role, some s, none, none⟩]
    | .rarr parts =>
        [⟨role,
          some (strConcat (parts.filterMap (fun p =>
            if (p.ptype = .strVal "input_text" ∨ p.ptype = .strVal "text"
                  ∨ p.ptype = .strVal "output_text")
                ∧ p.text.strOr "" ≠ "" then
              some (p.text.strOr "")
            else none))),
          none, none⟩]
    | .rnone => [⟨role, some "", none, none⟩]
    | .rother v => [⟨role, some (jsString v), none, none⟩]
  else [⟨"user", some (fallbackContent m), none, none⟩]

/-- `inputToMessages` (llmService.ts 358-424). -/
def inputToMessages : RespInput → List CanMsg
  | .istr s => [⟨"user", some s, none, none⟩]
  | .iother v => [⟨"user", some (match v with | some j => jsString j | none => ""), none, none⟩]
  | .iarr items => (items.map itemToMsgs).flatten

/-- An Anthropic request content block. -/
inductive AnthBlock where
  | text (t : String)
  | toolUse (id : String) (name : String) (input : JVal)
  | toolResult (tool_use_id : String) (content : String)
deriving Repr

inductive AnthContent where
  | astr (s : String)
  | ablocks (blocks : List AnthBlock)
deriving Repr

structure AnthMsg where
  role : String
  content : AnthContent
deriving Repr

/-- One Anthropic block to canonical (llmService.ts 602-625). -/
def anthBlockToCan (role : String) : AnthBlock → CanMsg
  | .text t => ⟨role, some t, none, none⟩
  | .toolUse id name input =>
      ⟨"assistant", some "",
       some [⟨id, "function",
              ⟨name, match input with | .jstr s => s | v => jsonStringify v⟩⟩], none⟩
  | .toolResult tid c => ⟨"tool", some c, none, some tid⟩

/-- `anthropicToOpenAIMessages` (llmService.ts 586-629). -/
def anthropicToOpenAIMessages (msgs : List AnthMsg) (system : Option String) : List CanMsg :=
  (match system with
   | some s => if s ≠ "" then [⟨"system", some s, none, none⟩] else []
   | none => []) ++
  (msgs.map (fun m =>
    match m.content with
    | .astr s => [⟨m.role, some s, none, none⟩]
    | .ablocks blocks => blocks.map (anthBlockToCan m.role))).flatten

/-- `choices[0].message` of an upstream JSON response as
`openAIToAnthropicResponse` reads it. -/
structure OAIRespMsg where
  content : JsField
  tool_calls : Option (List ToolCall)
deriving Repr

/-- `JSON.parse(arguments)`, falling back to the raw string
(llmService.ts 682-687). -/
def parseArgsToInput (args : String) : JVal :=
  match jsonParse args with
  | some v => v
  | none => .jstr args

/-- The `content` array of the Anthropic non-streaming response
(llmService.ts 668-695): one text block for a nonempty content string, then
one `tool_use` block per tool call. -/
def openAIToAnthropicContent (msg : Option OAIRespMsg) : List AnthBlock :=
  (match msg with
   | some m =>
       match m.content with
       | .strVal s => if s ≠ "" then [AnthBlock.text s] else []
       | _ => []
   | none => []) ++
  (match msg with
   | some m => (m.tool_calls.getD []).map (fun tc =>
       AnthBlock.toolUse tc.id tc.function.name (parseArgsToInput tc.function.arguments))
   | none => [])

/-- Finish-reason mapping of the buffered Anthropic builder
(llmService.ts 697-701). -/
def anthStopReason (fr : Option String) : String :=
  match fr with
  | some "length" => "max_tokens"
  | some "stop" => "end_turn"
  | some "tool_calls" => "tool_use"
  | _ => "end_turn"

/-! ## Round-trip bridges (for C6)

A buffered response of dialect X is fed back into the dialect-X request
normalizer, as a follow-up turn of the same conversation would be. -/

/-- A Responses output item re-sent as a Responses input item. -/
def respOutputItemToInput : RespOutputItem → RespItem
  | .message _ content =>
      ⟨some "message", some "assistant", none, none, .absent, none,
       .rarr (content.map (fun c => ⟨.strVal "output_text", .strVal c.text⟩))⟩
  | .functionCall cid nm args =>
      ⟨some "function_call", none, some cid, some nm, .strVal args, none, .rnone⟩

/-- The tool calls carried by a list of canonical messages. -/
def canMsgToolCalls (msgs : List CanMsg) : List ToolCall :=
  (msgs.map (fun m => m.tool_calls.getD [])).flatten

/-- Re-encoding of a tool-call arguments string by the Anthropic round trip:
parse, then the value itself when it is a string, else its canonical
stringification; unparseable strings stay as they are. -/
def argReencode (a : String) : String :=
  match jsonParse a with
  | none => a
  | some (.jstr s) => s
  | some v => jsonStringify v

/-! ## Concrete streams used by the counterexamples and witnesses -/

def emptyDelta : UpDelta := ⟨.absent, .absent, .absent, none⟩

/-- A `data:` line carrying only a delta. -/
def deltaEv (d : UpDelta) : SseLine := .ev ⟨none, none, none, some d, .absent⟩

/-- A `data:` line carrying only a finish reason. -/
def finishEv (fr : String) : SseLine := .ev ⟨none, none, none, none, .strVal fr⟩

/-- A line with one tool-call fragment at index `i`. -/
def toolFragEv (i : Nat) (idf namef argsf : JsField) : SseLine :=
  deltaEv ⟨.absent, .absent, .absent, some [⟨some i, idf, .absent, namef, argsf⟩]⟩

/-- A line with a content delta. -/
def contentEv (s : String) : SseLine :=
  deltaEv ⟨.strVal s, .absent, .absent, none⟩

/-- A line with a reasoning delta. -/
def reasoningEv (s : String) : SseLine :=
  deltaEv ⟨.absent, .strVal s, .absent, none⟩

/-- Text `"a"`, then a tool call at index 0, then text `"b"`, then finish:
the projector emits `content_block_delta(0)` after `content_block_stop(0)`. -/
def exC1Stream : List SseLine :=
  [contentEv "a",
   toolFragEv 0 (.strVal "t") (.strVal "f") .absent,
   contentEv "b",
   finishEv "stop"]

/-- The §8 scenario-5 stream: text, then a tool call with two argument
fragments, then `finish_reason:"tool_calls"`. -/
def scen5Stream : List SseLine :=
  [contentEv "hi",
   toolFragEv 0 (.strVal "t1") (.strVal "f") .absent,
   toolFragEv 0 .absent .absent (.strVal "\x7b\"x\""),
   toolFragEv 0 .absent .absent (.strVal ":1\x7d"),
   finishEv "tool_calls"]

/-- A reasoning fragment followed by a content fragment. -/
def exC2Stream : List SseLine :=
  [reasoningEv "R", contentEv "C", .doneMark]

/-- Content, a tool call, and a `length` finish reason. -/
def exC3Stream : List SseLine :=
  [contentEv "Hi",
   toolFragEv 0 (.strVal "c1") (.strVal "add") (.strVal "xy"),
   finishEv "length",
   .doneMark]

/-- A full (non-delta) message object adopting tool calls at once. -/
def exC5Stream : List SseLine :=
  [.ev ⟨none, none,
        some ⟨.strVal "x", some [⟨"a", "function", ⟨"f", "Z"⟩⟩]⟩, none, .absent⟩,
   .doneMark]

/-- The §8 scenario-4 stream: three fragments assembling one tool call. -/
def scen4Stream : List SseLine :=
  [toolFragEv 0 (.strVal "call_1") (.strVal "add") .absent,
   toolFragEv 0 .absent .absent (.strVal "\x7b\"a\":1"),
   toolFragEv 0 .absent .absent (.strVal ",\"b\":2\x7d"),
   .doneMark]

/-- `output[0].content` of a Responses envelope (empty when the head is not
a message item). -/
def respHeadContent (r : ResponseResponse) : List RespContentPart :=
  match r.output with
  | .message _ cs :: _ => cs
  | _ => []

/-! # Theorems -/

/-! ### String helpers -/

theorem string_append_empty (s : String) : s ++ "" = s := by
  apply String.ext
  simp [String.data_append]

theorem string_nil_append (s : String) : "" ++ s = s := by
  apply String.ext
  simp [String.data_append]

theorem string_append_assoc (a b c : String) : a ++ b ++ c = a ++ (b ++ c) := by
  apply String.ext
  simp [String.data_append]

/-! ### Supporting lemmas for the URL helper -/

theorem breakScheme_append (cs : List Char) :
    ∀ a b, breakScheme cs = some (a, b) → cs = a ++ ':' :: '/' :: '/' :: b := by
  induction cs with
  | nil => intro a b h; simp [breakScheme] at h
  | cons c rest ih =>
      intro a b h
      by_cases hc : c = ':'
      · subst hc
        by_cases ht : rest.take 2 = ['/', '/']
        · rw [show breakScheme (':' :: rest) = some ([], rest.drop 2) from by
              simp [breakScheme, ht]] at h
          injection h with h'
          injection h' with ha hb
          subst ha; subst hb
          have htd := rest.take_append_drop 2
          rw [ht] at htd
          simpa using htd.symm
        · simp [breakScheme, ht] at h
      · simp [breakScheme, hc] at h
        obtain ⟨p1, hbs, ha⟩ := h
        subst ha
        simpa using congrArg (c :: ·) (ih p1 b hbs)

theorem string_mk_append (a b : List Char) :
    String.mk (a ++ b) = String.mk a ++ String.mk b := rfl

theorem parseUrl_toString (s : String) (u : UrlRec)
    (h : parseUrl s = some u) (hp : u.pathname ≠ "/") : urlToString u = s := by
  unfold parseUrl at h
  cases hbs : breakScheme s.data with
  | none => rw [hbs] at h; simp at h
  | some p =>
      obtain ⟨sch, rest⟩ := p
      rw [hbs] at h
      simp only at h
      have hsplit := breakScheme_append s.data sch rest hbs
      have hrest : rest.takeWhile (fun c => ! hostEnd c)
          ++ rest.dropWhile (fun c => ! hostEnd c) = rest :=
        List.takeWhile_append_dropWhile _ _
      split_ifs at h with hval hhost
      · split at h
        · next tail hafter =>
            injection h with h'
            subst h'
            apply String.ext
            simp only [urlToString, String.data_append]
            have hparts : (('/' :: tail).takeWhile (fun c => ! pathEnd c))
                ++ (('/' :: tail).dropWhile (fun c => ! pathEnd c)) = '/' :: tail :=
              List.takeWhile_append_dropWhile _ _
            rw [hsplit]
            simp only [List.append_assoc]
            rw [hafter, hparts, ← hafter, hrest]
            rfl
        · next hafter =>
            injection h with h'
            subst h'
            exact absurd rfl hp

/-- C9: for every base URL string that parses as a URL with a non-trivial
path, the derived upstream URL for target `/v1/chat/completions` is the base
URL unchanged, and for any other target it is `origin ++ pathname`; an empty
or unparseable base URL yields no upstream URL (echo mode: the code performs
no upstream request without one). -/
theorem c9_upstreamUrlFor (s : String) (u : UrlRec)
    (hparse : parseUrl s = some u)
    (hp1 : u.pathname ≠ "/") (hp2 : u.pathname ≠ "") :
    upstreamUrlFor s "/v1/chat/completions" = some s
    ∧ (∀ p, p ≠ "/v1/chat/completions" → upstreamUrlFor s p = some (urlOrigin u ++ p))
    ∧ (∀ p, upstreamUrlFor "" p = none)
    ∧ (∀ t p, parseUrl t = none → upstreamUrlFor t p = none) := by
  have hs : s ≠ "" := by
    intro he
    rw [he] at hparse
    rw [show parseUrl "" = none from rfl] at hparse
    exact Option.noConfusion hparse
  refine ⟨?_, ?_, ?_, ?_⟩
  · simp only [upstreamUrlFor, if_neg hs, hparse]
    rw [if_neg (by simp [hp1, hp2])]
    simp only [if_true]
    exact congrArg some (parseUrl_toString s u hparse hp1)
  · intro p hne
    simp only [upstreamUrlFor, if_neg hs, hparse]
    rw [if_neg (by simp [hp1, hp2]), if_neg hne]
    refine congrArg some (String.ext ?_)
    simp [urlToString, urlOrigin]
  · intro p
    simp [upstreamUrlFor]
  · intro t p hnone
    by_cases ht : t = ""
    · simp [upstreamUrlFor, ht]
    · simp only [upstreamUrlFor, if_neg ht, hnone]

/-- Concrete instantiation of `c9_upstreamUrlFor`. -/
theorem c9_upstreamUrlFor_witness :
    upstreamUrlFor "http://h/v1/x" "/v1/chat/completions" = some "http://h/v1/x"
    ∧ upstreamUrlFor "http://h/v1/x" "/v1/models" = some "http://h/v1/models"
    ∧ upstreamUrlFor "" "/v1/models" = none
    ∧ upstreamUrlFor "nonsense" "/v1/models" = none := by
  have h := c9_upstreamUrlFor "http://h/v1/x" ⟨"http", "h", "/v1/x", ""⟩
    (by decide) (by decide) (by decide)
  refine ⟨h.1, ?_, h.2.2.1 "/v1/models", h.2.2.2 "nonsense" "/v1/models" (by decide)⟩
  have h2 := h.2.1 "/v1/models" (by decide)
  rw [h2]
  rfl

/-! ### Lemmas for the JSON recovery scan -/

theorem scanLoop_eq (op cl : Char) (rest : List Char) :
    ∀ (acc : List Char) (d : Nat),
      scanLoop op cl d acc rest =
        match depthRun op cl d rest with
        | some n => jsonParse (String.mk (acc ++ rest.take n))
        | none => none := by
  induction rest with
  | nil => intro acc d; simp [scanLoop, depthRun]
  | cons c rs ih =>
      intro acc d
      simp only [scanLoop, depthRun]
      by_cases hz : (if c = op then d + 1 else if c = cl then d - 1 else d) = 0
      · simp [hz]
      · rw [if_neg hz, ih (acc ++ [c])]
        cases hdr : depthRun op cl (if c = op then d + 1 else if c = cl then d - 1 else d) rs with
        | none => simp [hdr, hz]
        | some n => simp [hdr, hz, List.take_succ_cons, List.append_assoc]

/-- C8: the JSON recovery trims the candidate; when the trimmed text begins
and ends with a matching brace/bracket pair and parses directly, the parse
is returned; when it contains no opener the result is `none`; otherwise the
result is the forward scan from the earlier of the first brace and first
bracket, parsing the slice at which the depth returns to zero; and the
`json_object` fix of `createResponse` replaces the assistant text by the
canonical stringification exactly when recovery succeeds. -/
theorem c8_extractProbablyJSON (text txt : String) :
    (∀ v, isWrapped (jsTrim text) = true → jsonParse (jsTrim text) = some v →
        extractProbablyJSON text = some v)
    ∧ ((jsTrim text).data.findIdx? (· = braceOpen) = none →
        (jsTrim text).data.findIdx? (· = '[') = none →
        extractProbablyJSON text = none)
    ∧ (¬ (isWrapped (jsTrim text) = true ∧ (jsonParse (jsTrim text)).isSome = true) →
        extractProbablyJSON text =
          match openerSelect (jsTrim text).data with
          | some (idx, op, cl) => claimScan op cl ((jsTrim text).data.drop idx)
          | none => none)
    ∧ (responsesJsonObjectFix (some "json_object") txt =
        match extractProbablyJSON txt with
        | some parsed => jsonStringify parsed
        | none => txt)
    ∧ (∀ fmt, fmt ≠ some "json_object" → responsesJsonObjectFix fmt txt = txt) := by
  refine ⟨?_, ?_, ?_, ?_, ?_⟩
  · intro v hw hp
    by_cases hempty : jsTrim text = ""
    · rw [hempty] at hw; exact absurd hw (by decide)
    · simp only [extractProbablyJSON, if_neg hempty, hw, if_true, hp]
  · intro hfo hfa
    by_cases hempty : jsTrim text = ""
    · simp [extractProbablyJSON, hempty]
    · have hop : openerSelect (jsTrim text).data = none := by
        unfold openerSelect
        rw [hfo, hfa]
      rw [List.findIdx?_eq_none_iff] at hfo hfa
      have hw : isWrapped (jsTrim text) = false := by
        cases hd : (jsTrim text).data with
        | nil => simp [isWrapped, hd]
        | cons x xs =>
            have h1 := hfo x (by rw [hd]; exact List.mem_cons_self _ _)
            have h2 := hfa x (by rw [hd]; exact List.mem_cons_self _ _)
            simp only [decide_eq_false_iff_not] at h1 h2
            simp [isWrapped, hd, h1, h2]
      simp [extractProbablyJSON, hempty, hw, hop]
  · intro hns
    by_cases hempty : jsTrim text = ""
    · have hd : (jsTrim text).data = [] := by rw [hempty]
      simp [extractProbablyJSON, hempty, openerSelect, hd]
    · have hin : (if isWrapped (jsTrim text) then jsonParse (jsTrim text) else none) = none := by
        by_cases hw : isWrapped (jsTrim text)
        · rw [if_pos hw]
          cases hp : jsonParse (jsTrim text) with
          | none => rfl
          | some v => exact absurd ⟨hw, by simp [hp]⟩ hns
        · rw [if_neg hw]
      simp only [extractProbablyJSON, if_neg hempty, hin]
      cases hop : openerSelect (jsTrim text).data with
      | none => rfl
      | some sel =>
          obtain ⟨idx, op, cl⟩ := sel
          simp only [claimScan, scanLoop_eq op cl _ [] 0, List.nil_append]
  · simp [responsesJsonObjectFix]
  · intro fmt hne
    simp [responsesJsonObjectFix, hne]

/-- Concrete instantiation of `c8_extractProbablyJSON`: the scenario-6 text
recovers its embedded object; text with no balanced JSON is unchanged. -/
theorem c8_extractProbablyJSON_witness :
    extractProbablyJSON "sure, here: \x7b\"a\":1\x7d trailing"
      = some (.jobj [("a", .jnum 1)])
    ∧ responsesJsonObjectFix (some "json_object") "sure, here: \x7b\"a\":1\x7d trailing"
      = "\x7b\"a\":1\x7d"
    ∧ responsesJsonObjectFix (some "json_object") "no json here" = "no json here" := by
  have h1 := (c8_extractProbablyJSON "sure, here: \x7b\"a\":1\x7d trailing" "x").2.2.1
    (by decide)
  have he : extractProbablyJSON "sure, here: \x7b\"a\":1\x7d trailing"
      = some (.jobj [("a", .jnum 1)]) := by
    rw [h1]; rfl
  have h2 := (c8_extractProbablyJSON "x"
    "sure, here: \x7b\"a\":1\x7d trailing").2.2.2.1
  have h3 := (c8_extractProbablyJSON "no json here" "no json here").2.2.2.1
  refine ⟨he, ?_, ?_⟩
  · rw [h2, he]; rfl
  · rw [h3]
    have h4 := (c8_extractProbablyJSON "no json here" "no json here").2.1
      (by decide) (by decide)
    rw [h4]

/-! ### C7: shape of the Responses output builder -/

/-- C7: `buildResponsesProxyOutput` sets `output_text` to the assistant
text; the output list is the single message item (whose `output_text`
content part is omitted exactly when the assistant text is empty) followed
by one function-call item per tool call, in order, carrying `call_id`,
`name` and `arguments` from the tool call; and whenever `output[0].content`
is non-empty, its first part's text equals `output_text`. -/
theorem c7_buildResponsesProxyOutput (model at' : String) (toolCalls : List ToolCall)
    (request : RespRequestEcho) (respId msgId : String) (createdAt : Nat) :
    (buildResponsesProxyOutput model at' toolCalls request respId msgId createdAt).output_text
      = at'
    ∧ (buildResponsesProxyOutput model at' toolCalls request respId msgId createdAt).output
      = .message msgId (if at' = "" then [] else [⟨at'⟩])
          :: toolCalls.map (fun tc => .functionCall tc.id tc.function.name tc.function.arguments)
    ∧ (∀ p ps,
        respHeadContent (buildResponsesProxyOutput model at' toolCalls request respId msgId createdAt)
          = p :: ps →
        p.text
          = (buildResponsesProxyOutput model at' toolCalls request respId msgId createdAt).output_text) := by
  refine ⟨rfl, rfl, ?_⟩
  intro p ps h
  by_cases hat : at' = ""
  · simp [respHeadContent, buildResponsesProxyOutput, hat] at h
  · simp [respHeadContent, buildResponsesProxyOutput, hat] at h
    rw [← h.1]
    rfl

/-- A concrete Responses request echo record. -/
def reqEchoEx : RespRequestEcho :=
  ⟨none, none, none, true, .jnum 1, .jnull, .jnull, [], .jnum 1, true, none, .jobj []⟩

/-- Concrete instantiation of `c7_buildResponsesProxyOutput`. -/
theorem c7_buildResponsesProxyOutput_witness :
    (buildResponsesProxyOutput "m" "hi" [⟨"c1", "function", ⟨"f", "x"⟩⟩]
        reqEchoEx "r1" "msg1" 5).output
      = [.message "msg1" [⟨"hi"⟩], .functionCall "c1" "f" "x"]
    ∧ (⟨"hi"⟩ : RespContentPart).text
      = (buildResponsesProxyOutput "m" "hi" [⟨"c1", "function", ⟨"f", "x"⟩⟩]
          reqEchoEx "r1" "msg1" 5).output_text := by
  have h := c7_buildResponsesProxyOutput "m" "hi" [⟨"c1", "function", ⟨"f", "x"⟩⟩]
    reqEchoEx "r1" "msg1" 5
  refine ⟨by rw [h.2.1]; rfl, ?_⟩
  exact h.2.2 ⟨"hi"⟩ [] rfl

/-! ### C3: the buffered Chat Completions envelope -/

/-- C3 counterexample: the upstream stream `exC3Stream` carries
`finish_reason:"length"`, a reasoning-free assembled text `"Hi"` and one
tool call, yet the buffered envelope has `finish_reason:"stop"` and is
identical to the envelope of the same result without the tool call, so
neither the captured finish reason nor `tool_calls` reach the output. -/
theorem c3_counterexample :
    claimedFinishReason exC3Stream = "length"
    ∧ (chatCompletionOutOf (readSSE exC3Stream "m") "m" "u1" 5).choices
        = [⟨0, ⟨"assistant", "Hi"⟩, "stop"⟩]
    ∧ ("stop" : String) ≠ "length"
    ∧ (readSSE exC3Stream "m").toolCalls = [⟨"c1", "function", ⟨"add", "xy"⟩⟩]
    ∧ chatCompletionOutOf ⟨"Hi", [⟨"c1", "function", ⟨"add", "xy"⟩⟩], "m", none⟩ "m" "u1" 5
        = chatCompletionOutOf ⟨"Hi", [], "m", none⟩ "m" "u1" 5 := by
  exact ⟨rfl, rfl, by decide, rfl, rfl⟩

/-- C3 amended: the buffered Chat Completions output built by
`createChatCompletion` has the assembled `assistantText` as the assistant
message content, always `finish_reason:"stop"` and `usage:null`, and it
carries neither the assembled tool calls nor any reasoning field: it does
not depend on `toolCalls` at all. -/
theorem c3_chatCompletionOutOf (assembled : Assembled) (reqModel uuid : String) (now : Nat) :
    chatCompletionOutOf assembled reqModel uuid now
      = { id := "chatcmpl-" ++ uuid, object := "chat.completion", created := now,
          model := if assembled.model = "" then reqModel else assembled.model,
          choices := [⟨0, ⟨"assistant", assembled.assistantText⟩, "stop"⟩],
          usage := none }
    ∧ (∀ tcs, chatCompletionOutOf { assembled with toolCalls := tcs } reqModel uuid now
        = chatCompletionOutOf assembled reqModel uuid now) := by
  exact ⟨rfl, fun _ => rfl⟩

/-! ### C4: the `/v1/chat/completions` proxy endpoint -/

def exC4Body : ChatCCBody := ⟨some "m", some [⟨"user", .cstr "x"⟩], some true⟩

def exC4Up : UpstreamResp := ⟨true, .sse [contentEv "He", contentEv "y", .doneMark]⟩

/-- C4 counterexample: with `stream:true` in the body, the endpoint's
response is still the buffered JSON envelope, not a passed-through SSE
stream. -/
theorem c4_counterexample :
    exC4Body.stream = some true
    ∧ chatCompletionsEndpoint "http://h/v1/chat/completions" "dm" exC4Body exC4Up "u1" 7
        = .ok (.buffered ⟨"chatcmpl-u1", "chat.completion", 7, "m",
            [⟨0, ⟨"assistant", "Hey"⟩, "stop"⟩], none⟩)
    ∧ (∀ ls, (ChatApiResult.buffered ⟨"chatcmpl-u1", "chat.completion", 7, "m",
        [⟨0, ⟨"assistant", "Hey"⟩, "stop"⟩], none⟩) ≠ .streamed ls) := by
  refine ⟨rfl, rfl, ?_⟩
  intro ls h
  exact ChatApiResult.noConfusion h

/-- C4 amended: for every valid proxy-mode request, whatever the `stream`
field says, the endpoint answers with the buffered envelope built from the
assembled upstream result produced by the SSE assembler or the buffered
parser. -/
theorem c4_always_buffered (customLlmUrl defaultModel : String) (body : ChatCCBody)
    (up : UpstreamResp) (uuid : String) (now : Nat) (msgs : List ChatInMsg) (uurl : String)
    (hm : body.messages = some msgs) (hne : msgs ≠ [])
    (hurl : upstreamUrlFor customLlmUrl "/v1/chat/completions" = some uurl)
    (hok : up.ok = true) :
    chatCompletionsEndpoint customLlmUrl defaultModel body up uuid now
      = .ok (.buffered (chatCompletionOutOf
          (assembleUpstream up (body.model.getD defaultModel))
          (body.model.getD defaultModel) uuid now)) := by
  unfold chatCompletionsEndpoint createChatCompletion
  have hlen : ¬ msgs.length = 0 := by
    intro h
    exact hne (List.length_eq_zero.mp h)
  simp only [hm]
  rw [if_neg hlen]
  simp only [hurl, hok]
  rfl

/-- Concrete instantiation of `c4_always_buffered`. -/
theorem c4_always_buffered_witness :
    chatCompletionsEndpoint "http://h/v1/chat/completions" "dm"
        ⟨some "m", some [⟨"user", .cstr "x"⟩], some false⟩ exC4Up "u2" 9
      = .ok (.buffered (chatCompletionOutOf
          (assembleUpstream exC4Up "m") "m" "u2" 9)) := by
  exact c4_always_buffered "http://h/v1/chat/completions" "dm"
    ⟨some "m", some [⟨"user", .cstr "x"⟩], some false⟩ exC4Up "u2" 9
    [⟨"user", .cstr "x"⟩] "http://h/v1/chat/completions" rfl (by decide) rfl rfl

/-! ### Stream observation lemmas -/

theorem eventsOf_nil : eventsOf [] = [] := rfl

theorem eventsOf_cons_ev (e : UpEvent) (rest : List SseLine) :
    eventsOf (.ev e :: rest) = e :: eventsOf rest := by
  simp [eventsOf, beforeDone, SseLine.isDone, List.takeWhile_cons, lineEvents]

theorem eventsOf_cons_junk (rest : List SseLine) :
    eventsOf (.junk :: rest) = eventsOf rest := by
  simp [eventsOf, beforeDone, SseLine.isDone, List.takeWhile_cons, lineEvents]

theorem eventsOf_cons_done (rest : List SseLine) :
    eventsOf (.doneMark :: rest) = [] := by
  simp [eventsOf, beforeDone, SseLine.isDone, List.takeWhile_cons]

/-! ### C2: assembled assistant text -/

theorem asmUpdateMeta_text (st : AsmState) (e : UpEvent) :
    (asmUpdateMeta st e).assistantText = st.assistantText := by
  unfold asmUpdateMeta
  cases e.model <;> cases e.usage <;> simp only [] <;> split_ifs <;> rfl

theorem asmUpdateMeta_slots (st : AsmState) (e : UpEvent) :
    (asmUpdateMeta st e).slots = st.slots := by
  unfold asmUpdateMeta
  cases e.model <;> cases e.usage <;> simp only [] <;> split_ifs <;> rfl

theorem asmEventDelta_text (st : AsmState) (e : UpEvent) :
    (asmEventDelta st e).assistantText = st.assistantText ++ evMergedText e := by
  unfold asmEventDelta evMergedText
  cases e.delta with
  | none => exact (string_append_empty _).symm
  | some d =>
      obtain ⟨dc, dr, dt, dtc⟩ := d
      unfold asmDelta
      cases dc <;> cases dr <;> cases dt <;>
        simp [string_append_assoc, string_append_empty]

theorem asmEventDelta_slots (st : AsmState) (e : UpEvent) :
    (asmEventDelta st e).slots = (fragsOfEvent e).foldl asmFrag st.slots := by
  unfold asmEventDelta fragsOfEvent
  cases e.delta with
  | none => rfl
  | some d =>
      obtain ⟨dc, dr, dt, dtc⟩ := d
      unfold asmDelta
      cases dtc <;> simp [Option.getD]

theorem noFullMessage_cons_ev (e : UpEvent) (rest : List SseLine)
    (h : noFullMessage (.ev e :: rest) = true) :
    fullMsgContent e = none ∧ noFullMessage rest = true := by
  rw [noFullMessage, eventsOf_cons_ev, List.all_cons] at h
  simp only [Bool.and_eq_true] at h
  constructor
  · cases hq : fullMsgContent e with
    | none => rfl
    | some s =>
        exfalso
        have := h.1
        rw [evHasFullContent, hq] at this
        simp at this
  · exact h.2

theorem mergedAssistantText_cons_ev (e : UpEvent) (rest : List SseLine) :
    mergedAssistantText (.ev e :: rest) = evMergedText e ++ mergedAssistantText rest := by
  unfold mergedAssistantText
  rw [eventsOf_cons_ev]
  rfl

theorem readSSEGo_text (lines : List SseLine) :
    ∀ st : AsmState, noFullMessage lines = true →
      (readSSEGo lines st).assistantText = st.assistantText ++ mergedAssistantText lines := by
  induction lines with
  | nil =>
      intro st _
      simp [readSSEGo, asmFinish, mergedAssistantText, eventsOf_nil, strConcat,
        string_append_empty]
  | cons l rest ih =>
      intro st h
      cases l with
      | doneMark =>
          simp [readSSEGo, asmFinish, mergedAssistantText, eventsOf_cons_done, strConcat,
            string_append_empty]
      | junk =>
          have h' : noFullMessage rest = true := by
            simpa [noFullMessage, eventsOf_cons_junk] using h
          rw [show readSSEGo (.junk :: rest) st = readSSEGo rest st from rfl, ih st h']
          simp [mergedAssistantText, eventsOf_cons_junk]
      | ev e =>
          obtain ⟨hfc, h'⟩ := noFullMessage_cons_ev e rest h
          rw [show readSSEGo (.ev e :: rest) st
              = readSSEGo rest (asmEventDelta (asmUpdateMeta st e) e) from by
                simp [readSSEGo, hfc]]
          rw [ih _ h', asmEventDelta_text, asmUpdateMeta_text]
          rw [mergedAssistantText_cons_ev]
          exact string_append_assoc _ _ _

/-- C2 counterexample: in `exC2Stream` a `delta.reasoning_content` fragment
`"R"` precedes a `delta.content` fragment `"C"`.  The claim's separate
`reasoningText` does not exist in the assembled result, whose
`assistantText` is `"RC"` rather than the claimed concatenation `"C"` of
`delta.content`/`delta.text` fragments. -/
theorem c2_counterexample :
    (readSSE exC2Stream "m").assistantText = "RC"
    ∧ claimedAssistantText exC2Stream = "C"
    ∧ ("RC" : String) ≠ "C" := by
  exact ⟨rfl, rfl, by decide⟩

/-- C2 amended: for every upstream SSE without a full (non-delta) message
object, the assembled `assistantText` is the concatenation, in arrival
order, of all `delta.content`, `delta.reasoning_content` and `delta.text`
string fragments (content before reasoning before text inside one event);
reasoning fragments are merged into the assistant text, there is no
separate reasoning field. -/
theorem c2_assistantText_merged (lines : List SseLine) (m : String)
    (h : noFullMessage lines = true) :
    (readSSE lines m).assistantText = mergedAssistantText lines := by
  unfold readSSE
  rw [readSSEGo_text lines _ h]
  exact string_nil_append _

/-- Concrete instantiation of `c2_assistantText_merged`. -/
theorem c2_assistantText_merged_witness :
    noFullMessage exC2Stream = true
    ∧ (readSSE exC2Stream "m").assistantText = mergedAssistantText exC2Stream := by
  exact ⟨by decide, c2_assistantText_merged exC2Stream "m" (by decide)⟩

/-! ### C5/C10: tool-call slots of the assembler -/

theorem appendArgs_empty (t : ToolCall) : appendArgs t "" = t := by
  obtain ⟨i, ty, ⟨n, a⟩⟩ := t
  simp [appendArgs, string_append_empty]

theorem appendArgs_append (t : ToolCall) (a b : String) :
    appendArgs (appendArgs t a) b = appendArgs t (a ++ b) := by
  obtain ⟨i, ty, ⟨n, ar⟩⟩ := t
  simp [appendArgs, string_append_assoc]

theorem getSlot_setSlot_self (i : Nat) : ∀ (l : List (Option ToolCall)) (tc : ToolCall),
    getSlot (setSlot l i tc) i = some tc := by
  induction i with
  | zero => intro l tc; cases l <;> rfl
  | succ n ih => intro l tc; cases l <;> simp [setSlot, getSlot, ih]

theorem getSlot_setSlot_ne (i : Nat) : ∀ (j : Nat) (l : List (Option ToolCall)) (tc : ToolCall),
    j ≠ i → getSlot (setSlot l i tc) j = getSlot l j := by
  induction i with
  | zero =>
      intro j l tc hne
      cases l with
      | nil => cases j with
          | zero => exact absurd rfl hne
          | succ k => simp [setSlot, getSlot]
      | cons x rest => cases j with
          | zero => exact absurd rfl hne
          | succ k => rfl
  | succ n ih =>
      intro j l tc hne
      cases l with
      | nil => cases j with
          | zero => rfl
          | succ k =>
              simp only [setSlot, getSlot]
              rw [ih k [] tc (by omega)]
              rfl
      | cons x rest => cases j with
          | zero => rfl
          | succ k =>
              simp only [setSlot, getSlot]
              exact ih k rest tc (by omega)

theorem asmFrag_getSlot_self (slots : List (Option ToolCall)) (g : DeltaToolFrag) :
    getSlot (asmFrag slots g) (g.index.getD 0) =
      some (match getSlot slots (g.index.getD 0) with
            | some t => appendArgs t (fragArg g)
            | none => appendArgs (initSlot g) (fragArg g)) := by
  unfold asmFrag
  cases hs : getSlot slots (g.index.getD 0) with
  | some t =>
      cases ha : g.arguments <;>
        simp [hs, ha, fragArg, JsField.strOr, appendArgs_empty, getSlot_setSlot_self]
  | none =>
      cases ha : g.arguments <;>
        simp [hs, ha, fragArg, JsField.strOr, appendArgs_empty, getSlot_setSlot_self]

theorem asmFrag_getSlot_ne (slots : List (Option ToolCall)) (g : DeltaToolFrag) (j : Nat)
    (hne : j ≠ g.index.getD 0) :
    getSlot (asmFrag slots g) j = getSlot slots j := by
  unfold asmFrag
  cases hs : getSlot slots (g.index.getD 0) with
  | some t =>
      cases ha : g.arguments <;> simp [hs, ha, getSlot_setSlot_ne _ _ _ _ hne]
  | none =>
      cases ha : g.arguments <;>
        simp [hs, ha, getSlot_setSlot_self, getSlot_setSlot_ne _ _ _ _ hne]

theorem foldl_asmFrag_getSlot (frags : List DeltaToolFrag) :
    ∀ (slots : List (Option ToolCall)) (i : Nat),
      getSlot (frags.foldl asmFrag slots) i =
        match getSlot slots i, frags.filter (fun f => f.index.getD 0 = i) with
        | some t, fs => some (appendArgs t (strConcat (fs.map fragArg)))
        | none, [] => none
        | none, f :: fs => some (appendArgs (initSlot f) (strConcat ((f :: fs).map fragArg))) := by
  induction frags with
  | nil =>
      intro slots i
      cases hs : getSlot slots i <;> simp [hs, strConcat, appendArgs_empty]
  | cons g gs ih =>
      intro slots i
      rw [List.foldl_cons, ih]
      by_cases hgi : g.index.getD 0 = i
      · rw [← hgi, asmFrag_getSlot_self]
        rw [hgi]
        cases hs : getSlot slots i with
        | some t =>
            simp [hs, List.filter_cons, hgi, strConcat, appendArgs_append]
        | none =>
            simp only [hs, List.filter_cons, hgi, decide_True, if_true]
            cases hg : gs.filter (fun f => f.index.getD 0 = i) <;>
              simp [hg, strConcat, appendArgs_append]
      · rw [asmFrag_getSlot_ne slots g i (fun he => hgi he.symm)]
        have hf : (g :: gs).filter (fun f => f.index.getD 0 = i)
            = gs.filter (fun f => f.index.getD 0 = i) := by
          simp [List.filter_cons, hgi]
        rw [hf]

theorem allFragsOf_cons_ev (e : UpEvent) (rest : List SseLine) :
    allFragsOf (.ev e :: rest) = fragsOfEvent e ++ allFragsOf rest := by
  simp [allFragsOf, eventsOf_cons_ev]

theorem allFragsOf_cons_junk (rest : List SseLine) :
    allFragsOf (.junk :: rest) = allFragsOf rest := by
  simp [allFragsOf, eventsOf_cons_junk]

theorem allFragsOf_cons_done (rest : List SseLine) :
    allFragsOf (.doneMark :: rest) = [] := by
  simp [allFragsOf, eventsOf_cons_done]

theorem readSSEGo_toolCalls (lines : List SseLine) :
    ∀ st : AsmState, noFullMessage lines = true →
      (readSSEGo lines st).toolCalls
        = ((allFragsOf lines).foldl asmFrag st.slots).filterMap id := by
  induction lines with
  | nil =>
      intro st _
      simp [readSSEGo, asmFinish, allFragsOf, eventsOf_nil]
  | cons l rest ih =>
      intro st h
      cases l with
      | doneMark => simp [readSSEGo, asmFinish, allFragsOf_cons_done]
      | junk =>
          have h' : noFullMessage rest = true := by
            simpa [noFullMessage, eventsOf_cons_junk] using h
          rw [show readSSEGo (.junk :: rest) st = readSSEGo rest st from rfl, ih st h',
            allFragsOf_cons_junk]
      | ev e =>
          obtain ⟨hfc, h'⟩ := noFullMessage_cons_ev e rest h
          rw [show readSSEGo (.ev e :: rest) st
              = readSSEGo rest (asmEventDelta (asmUpdateMeta st e) e) from by
                simp [readSSEGo, hfc]]
          rw [ih _ h', asmEventDelta_slots, asmUpdateMeta_slots, allFragsOf_cons_ev,
            List.foldl_append]

theorem readSSEGo_append_done (lines : List SseLine) :
    ∀ st : AsmState, (lines.all (fun l => ! l.isDone)) = true →
      readSSEGo (lines ++ [.doneMark]) st = readSSEGo lines st := by
  induction lines with
  | nil => intro st _; rfl
  | cons l rest ih =>
      intro st h
      rw [List.all_cons, Bool.and_eq_true] at h
      cases l with
      | doneMark => simp [SseLine.isDone] at h
      | junk =>
          rw [List.cons_append]
          rw [show readSSEGo (.junk :: (rest ++ [.doneMark])) st
              = readSSEGo (rest ++ [.doneMark]) st from rfl]
          rw [show readSSEGo (.junk :: rest) st = readSSEGo rest st from rfl]
          exact ih st h.2
      | ev e =>
          rw [List.cons_append]
          cases hfc : fullMsgContent e with
          | some s =>
              cases htc : fullMsgToolCalls e with
              | some tcs => simp [readSSEGo, hfc, htc]
              | none => simp [readSSEGo, hfc, htc, ih _ h.2]
          | none => simp [readSSEGo, hfc, ih _ h.2]

/-- C5 counterexample: in `exC5Stream` a full (non-delta) message object is
adopted: the final tool call at index 0 has arguments `"Z"` although no
`delta.tool_calls` fragment ever arrived, so the final arguments string is
not the concatenation of the index-0 fragments (which is empty). -/
theorem c5_counterexample :
    (readSSE exC5Stream "m").toolCalls = [⟨"a", "function", ⟨"f", "Z"⟩⟩]
    ∧ fragsAt 0 exC5Stream = []
    ∧ argsConcatAt 0 exC5Stream = ""
    ∧ ("Z" : String) ≠ "" := by
  exact ⟨rfl, rfl, rfl, by decide⟩

/-- C5 amended: for every upstream SSE without a full (non-delta) message
object, the assembled tool-call array is the slot array filtered of
uninitialized entries, the slot at index `i` carries exactly the
concatenation, in arrival order, of the `function.arguments` strings of the
fragments with index `i`, and a stream that ends without `[DONE]` yields
the same accumulated result as one that ends with it. -/
theorem c5_toolCall_args (lines : List SseLine) (m : String)
    (h : noFullMessage lines = true) :
    (readSSE lines m).toolCalls = (finalSlots lines).filterMap id
    ∧ (∀ i tc, getSlot (finalSlots lines) i = some tc →
        tc.function.arguments = argsConcatAt i lines)
    ∧ ((lines.all (fun l => ! l.isDone)) = true →
        readSSE lines m = readSSE (lines ++ [.doneMark]) m) := by
  refine ⟨?_, ?_, ?_⟩
  · unfold readSSE finalSlots
    exact readSSEGo_toolCalls lines _ h
  · intro i tc htc
    unfold finalSlots at htc
    have h0 : getSlot ([] : List (Option ToolCall)) i = none := rfl
    rw [foldl_asmFrag_getSlot, h0] at htc
    cases hf : (allFragsOf lines).filter (fun f => f.index.getD 0 = i) with
    | nil => rw [hf] at htc; exact absurd htc (by simp)
    | cons f fs =>
        rw [hf] at htc
        have heq : appendArgs (initSlot f) (strConcat ((f :: fs).map fragArg)) = tc := by
          injection htc
        rw [← heq]
        have hfr : fragsAt i lines = f :: fs := hf
        rw [argsConcatAt, hfr]
        obtain ⟨fi, fid, fty, fn, fa⟩ := f
        simp [appendArgs, initSlot, string_nil_append]
  · intro hall
    unfold readSSE
    exact (readSSEGo_append_done lines _ hall).symm

/-- Concrete instantiation of `c5_toolCall_args` on the §8 scenario-4
stream. -/
theorem c5_toolCall_args_witness :
    noFullMessage scen4Stream = true
    ∧ (readSSE scen4Stream "m").toolCalls
        = [⟨"call_1", "function", ⟨"add", "\x7b\"a\":1,\"b\":2\x7d"⟩⟩]
    ∧ argsConcatAt 0 scen4Stream = "\x7b\"a\":1,\"b\":2\x7d" := by
  have h := c5_toolCall_args scen4Stream "m" (by decide)
  refine ⟨by decide, ?_, by decide⟩
  rw [h.1]
  rfl

/-! ### C6: round trips through the buffered response builders -/

theorem itemToMsgs_functionCall (cid nm args : String) :
    itemToMsgs (respOutputItemToInput (.functionCall cid nm args))
      = [⟨"assistant", some "", some [⟨cid, "function", ⟨nm, args⟩⟩], none⟩] := rfl

theorem resp_fn_items_roundtrip (tcs : List ToolCall) :
    (((tcs.map (fun tc =>
        RespOutputItem.functionCall tc.id tc.function.name tc.function.arguments)).map
          respOutputItemToInput).map itemToMsgs).flatten
      = tcs.map (fun tc =>
          (⟨"assistant", some "", some [⟨tc.id, "function",
            ⟨tc.function.name, tc.function.arguments⟩⟩], none⟩ : CanMsg)) := by
  induction tcs with
  | nil => rfl
  | cons tc rest ih =>
      simp only [List.map_cons, List.flatten_cons, itemToMsgs_functionCall, ih]
      rfl

theorem anthBlockToCan_toolUse (role id name a : String) :
    anthBlockToCan role (AnthBlock.toolUse id name (parseArgsToInput a))
      = ⟨"assistant", some "", some [⟨id, "function", ⟨name, argReencode a⟩⟩], none⟩ := by
  unfold anthBlockToCan parseArgsToInput argReencode
  cases jsonParse a with
  | none => rfl
  | some v => cases v <;> rfl

/-- C6 counterexample: the Chat Completions buffered builder produces the
identical envelope with and without the assembled tool call, so no
Chat-Completions round trip can preserve the set of tool calls; and the
Anthropic round trip re-encodes a raw argument string `"{ }"` (with a
space) as `"{}"`. -/
theorem c6_counterexample :
    chatCompletionOutOf ⟨"t", [⟨"id1", "function", ⟨"f", "\x7b\x7d"⟩⟩], "m", none⟩ "m" "u" 3
      = chatCompletionOutOf ⟨"t", [], "m", none⟩ "m" "u" 3
    ∧ argReencode "\x7b \x7d" = "\x7b\x7d"
    ∧ ("\x7b \x7d" : String) ≠ "\x7b\x7d" := by
  exact ⟨rfl, rfl, by decide⟩

/-- C6 amended: (a) the Responses round trip — feeding the buffered
Responses output back through `inputToMessages` — preserves the assistant
text and the tool calls exactly (ids, names, raw argument strings),
unconditionally; (b) the Chat Completions buffered builder keeps only the
assistant text and drops tool calls (its output does not depend on them);
(c) the Anthropic round trip preserves the assistant text and the
tool-call ids and names while passing every argument string through JSON
re-encoding (`argReencode`), so it preserves an argument string exactly
when `argReencode` leaves it unchanged — in particular for every
canonically-serialized JSON string and every unparseable string. -/
theorem c6_roundtrip (model text : String) (toolCalls : List ToolCall)
    (request : RespRequestEcho) (respId msgId : String) (createdAt : Nat)
    (assembled : Assembled) (reqModel uuid : String) (now : Nat) :
    inputToMessages (.iarr ((buildResponsesProxyOutput model text toolCalls request
          respId msgId createdAt).output.map respOutputItemToInput))
      = ⟨"assistant", some text, none, none⟩ ::
          toolCalls.map (fun tc =>
            (⟨"assistant", some "", some [⟨tc.id, "function",
              ⟨tc.function.name, tc.function.arguments⟩⟩], none⟩ : CanMsg))
    ∧ (∀ tcs, chatCompletionOutOf { assembled with toolCalls := tcs } reqModel uuid now
        = chatCompletionOutOf assembled reqModel uuid now)
    ∧ ((chatCompletionOutOf assembled reqModel uuid now).choices.map (·.message.content)
        = [assembled.assistantText])
    ∧ anthropicToOpenAIMessages
        [⟨"assistant", .ablocks (openAIToAnthropicContent
            (some ⟨.strVal text, some toolCalls⟩))⟩] none
      = (if text = "" then [] else [⟨"assistant", some text, none, none⟩])
        ++ toolCalls.map (fun tc =>
            (⟨"assistant", some "", some [⟨tc.id, "function",
              ⟨tc.function.name, argReencode tc.function.arguments⟩⟩], none⟩ : CanMsg))
    ∧ ((∀ tc ∈ toolCalls, argReencode tc.function.arguments = tc.function.arguments) →
        anthropicToOpenAIMessages
          [⟨"assistant", .ablocks (openAIToAnthropicContent
              (some ⟨.strVal text, some toolCalls⟩))⟩] none
        = (if text = "" then [] else [⟨"assistant", some text, none, none⟩])
          ++ toolCalls.map (fun tc =>
              (⟨"assistant", some "", some [⟨tc.id, "function",
                ⟨tc.function.name, tc.function.arguments⟩⟩], none⟩ : CanMsg))) := by
  have hd : anthropicToOpenAIMessages
      [⟨"assistant", .ablocks (openAIToAnthropicContent
          (some ⟨.strVal text, some toolCalls⟩))⟩] none
      = (if text = "" then [] else [⟨"assistant", some text, none, none⟩])
        ++ toolCalls.map (fun tc =>
            (⟨"assistant", some "", some [⟨tc.id, "function",
              ⟨tc.function.name, argReencode tc.function.arguments⟩⟩], none⟩ : CanMsg)) := by
    rw [show openAIToAnthropicContent (some ⟨.strVal text, some toolCalls⟩)
        = (if text = "" then [] else [.text text])
          ++ toolCalls.map (fun tc => AnthBlock.toolUse tc.id tc.function.name
              (parseArgsToInput tc.function.arguments)) from by
      unfold openAIToAnthropicContent
      by_cases hat : text = "" <;> simp [hat, Option.getD]]
    rw [show anthropicToOpenAIMessages
        [⟨"assistant", .ablocks ((if text = "" then [] else [.text text])
          ++ toolCalls.map (fun tc => AnthBlock.toolUse tc.id tc.function.name
              (parseArgsToInput tc.function.arguments)))⟩] none
      = ((if text = "" then [] else [AnthBlock.text text])
          ++ toolCalls.map (fun tc => AnthBlock.toolUse tc.id tc.function.name
              (parseArgsToInput tc.function.arguments))).map
            (anthBlockToCan "assistant") from by
      simp [anthropicToOpenAIMessages]]
    rw [List.map_append]
    congr 1
    · by_cases hat : text = "" <;> simp [hat, anthBlockToCan]
    · rw [List.map_map]
      apply List.map_congr_left
      intro tc _
      show anthBlockToCan "assistant" (AnthBlock.toolUse tc.id tc.function.name
        (parseArgsToInput tc.function.arguments)) = _
      rw [anthBlockToCan_toolUse]
  refine ⟨?_, fun _ => rfl, rfl, hd, ?_⟩
  · rw [show (buildResponsesProxyOutput model text toolCalls request respId msgId
        createdAt).output
      = .message msgId (if text = "" then [] else [⟨text⟩])
          :: toolCalls.map (fun tc =>
            .functionCall tc.id tc.function.name tc.function.arguments) from rfl]
    rw [List.map_cons, show inputToMessages (.iarr (respOutputItemToInput
        (.message msgId (if text = "" then [] else [⟨text⟩]))
        :: (toolCalls.map (fun tc =>
          .functionCall tc.id tc.function.name tc.function.arguments)).map
            respOutputItemToInput))
      = itemToMsgs (respOutputItemToInput
          (.message msgId (if text = "" then [] else [⟨text⟩])))
        ++ (((toolCalls.map (fun tc =>
            .functionCall tc.id tc.function.name tc.function.arguments)).map
              respOutputItemToInput).map itemToMsgs).flatten from rfl]
    rw [resp_fn_items_roundtrip]
    by_cases hat : text = ""
    · subst hat
      rfl
    · have hhd : itemToMsgs (respOutputItemToInput (.message msgId [⟨text⟩]))
          = [⟨"assistant", some (text ++ ""), none, none⟩] := by
        rw [show respOutputItemToInput (.message msgId [⟨text⟩])
            = ({ itype := some "message", role := some "assistant", call_id := none,
                 name := none, arguments := JsField.absent, output := none,
                 content := RItemContent.rarr
                   [⟨JsField.strVal "output_text", JsField.strVal text⟩] } : RespItem)
          from rfl]
        unfold itemToMsgs
        rw [if_neg (fun hcc => by simp at hcc), if_neg (fun hcc => by simp at hcc),
          if_pos (Or.inl rfl)]
        simp only [List.map_cons, List.map_nil, List.filterMap_cons, List.filterMap_nil]
        rw [if_pos (show (JsField.strVal "output_text" = JsField.strVal "input_text"
              ∨ JsField.strVal "output_text" = JsField.strVal "text" ∨ True)
            ∧ (JsField.strVal text).strOr "" ≠ "" from
          ⟨Or.inr (Or.inr trivial), by simpa [JsField.strOr] using hat⟩)]
        rfl
      rw [if_neg hat, hhd, string_append_empty]
      rfl
  · intro h
    rw [hd]
    congr 1
    apply List.map_congr_left
    intro tc htc
    rw [h tc htc]

/-- Concrete instantiation of `c6_roundtrip`. -/
theorem c6_roundtrip_witness :
    inputToMessages (.iarr ((buildResponsesProxyOutput "m" "hi"
          [⟨"c1", "function", ⟨"f", "\x7b\"a\":1\x7d"⟩⟩] reqEchoEx "r" "g" 2).output.map
            respOutputItemToInput))
      = [⟨"assistant", some "hi", none, none⟩,
         ⟨"assistant", some "", some [⟨"c1", "function", ⟨"f", "\x7b\"a\":1\x7d"⟩⟩], none⟩]
    ∧ anthropicToOpenAIMessages
        [⟨"assistant", .ablocks (openAIToAnthropicContent
            (some ⟨.strVal "hi", some [⟨"c1", "function", ⟨"f", "\x7b\"a\":1\x7d"⟩⟩]⟩))⟩] none
      = [⟨"assistant", some "hi", none, none⟩,
         ⟨"assistant", some "", some [⟨"c1", "function", ⟨"f", "\x7b\"a\":1\x7d"⟩⟩], none⟩] := by
  have h := c6_roundtrip "m" "hi" [⟨"c1", "function", ⟨"f", "\x7b\"a\":1\x7d"⟩⟩]
    reqEchoEx "r" "g" 2 ⟨"hi", [], "m", none⟩ "m" "u" 1
  refine ⟨?_, ?_⟩
  · rw [h.1]
    rfl
  · rw [h.2.2.2.2 (by intro tc htc; simp at htc; rw [htc]; rfl)]
    rfl

/-! ## Scanner monotonicity (C1) -/

theorem scanFrag_ok_mono (ss : ScanState) (f : DeltaToolFrag)
    (h : (scanFrag ss f).ok = true) : ss.ok = true := by
  simp only [scanFrag] at h
  split_ifs at h <;> simp_all

theorem scanFrag_ok_false (ss : ScanState) (f : DeltaToolFrag)
    (h : ss.ok = false) : (scanFrag ss f).ok = false := by
  simp only [scanFrag]
  split_ifs <;> simp_all

theorem scanFrags_ok_mono (l : List DeltaToolFrag) : ∀ ss : ScanState,
    ((l.foldl scanFrag ss).ok = true) → ss.ok = true := by
  induction l with
  | nil => intro ss h; exact h
  | cons f t ih => intro ss h; exact scanFrag_ok_mono ss f (ih _ h)

theorem scanFrags_ok_false (l : List DeltaToolFrag) : ∀ ss : ScanState,
    ss.ok = false → (l.foldl scanFrag ss).ok = false := by
  induction l with
  | nil => intro ss h; exact h
  | cons f t ih => intro ss h; exact ih _ (scanFrag_ok_false ss f h)

theorem scanEvent_ok_mono (ss : ScanState) (e : UpEvent)
    (h : (scanEvent ss e).ok = true) : ss.ok = true := by
  cases hd : e.delta with
  | none => simpa [scanEvent, hd] using h
  | some d =>
      cases hpt : projTextContent d with
      | none =>
          cases htc : d.tool_calls with
          | none => simpa [scanEvent, hd, hpt, htc] using h
          | some frags =>
              refine scanFrags_ok_mono frags ss ?_
              simpa [scanEvent, hd, hpt, htc] using h
      | some s =>
          by_cases hst : ss.seenTool = true
          · cases htc : d.tool_calls with
            | none => simp [scanEvent, hd, hpt, htc, hst] at h
            | some frags =>
                exfalso
                have hff := scanFrags_ok_false frags ⟨true, ss.seenIdxs, false⟩ rfl
                simp [scanEvent, hd, hpt, htc, hst] at h
                simp [h] at hff
          · cases htc : d.tool_calls with
            | none => simpa [scanEvent, hd, hpt, htc, hst] using h
            | some frags =>
                refine scanFrags_ok_mono frags ss ?_
                simpa [scanEvent, hd, hpt, htc, hst] using h

theorem scanEvents_ok_mono (l : List UpEvent) : ∀ ss : ScanState,
    ((l.foldl scanEvent ss).ok = true) → ss.ok = true := by
  induction l with
  | nil => intro ss h; exact h
  | cons e t ih => intro ss h; exact scanEvent_ok_mono ss e (ih _ h)

/-! ## Map lemmas (C1 and C10) -/

theorem natContains_iff (l : List Nat) (a : Nat) : l.contains a = true ↔ a ∈ l := by
  simp [List.contains]

theorem mapGet_nil (j : Nat) : mapGet [] j = none := rfl

theorem mapGet_cons (a : Nat × ToolProg) (t : List (Nat × ToolProg)) (j : Nat) :
    mapGet (a :: t) j = if a.1 = j then some a.2 else mapGet t j := by
  unfold mapGet
  by_cases ha : a.1 = j
  · rw [List.find?_cons_of_pos _ (by simpa using ha), if_pos ha]
    rfl
  · rw [List.find?_cons_of_neg _ (by simpa using ha), if_neg ha]

theorem mapHas_nil (i : Nat) : mapHas [] i = false := rfl

theorem mapHas_cons (a : Nat × ToolProg) (t : List (Nat × ToolProg)) (i : Nat) :
    mapHas (a :: t) i = (decide (a.1 = i) || mapHas t i) := by
  simp [mapHas]

theorem mapHas_iff (l : List (Nat × ToolProg)) (i : Nat) :
    mapHas l i = true ↔ i ∈ keysOf l := by
  simp [mapHas, keysOf, List.any_eq_true, List.mem_map, decide_eq_true_eq]

theorem mapHas_get (l : List (Nat × ToolProg)) (i : Nat) (h : mapHas l i = true) :
    ∃ t, mapGet l i = some t := by
  induction l with
  | nil => simp [mapHas] at h
  | cons a t ih =>
      rw [mapGet_cons]
      by_cases ha : a.1 = i
      · exact ⟨a.2, by rw [if_pos ha]⟩
      · rw [if_neg ha]
        rw [mapHas_cons] at h
        simp [ha] at h
        exact ih h

theorem mapGet_none (l : List (Nat × ToolProg)) (i : Nat) (h : mapHas l i = false) :
    mapGet l i = none := by
  induction l with
  | nil => rfl
  | cons a t ih =>
      rw [mapHas_cons] at h
      simp only [Bool.or_eq_false_iff, decide_eq_false_iff_not] at h
      rw [mapGet_cons, if_neg h.1]
      exact ih h.2

theorem mapGet_mapOverwrite (t : List (Nat × ToolProg)) (i j : Nat) (v : ToolProg)
    (hj : j ≠ i) :
    mapGet (t.map (fun p => if p.1 = i then (i, v) else p)) j = mapGet t j := by
  induction t with
  | nil => rfl
  | cons a t ih =>
      rw [List.map_cons]
      by_cases ha : a.1 = i
      · rw [if_pos ha, mapGet_cons, mapGet_cons, ih]
        have h1 : ¬ ((i, v) : Nat × ToolProg).1 = j := fun he => hj he.symm
        have h2 : ¬ a.1 = j := fun he => hj (he ▸ ha)
        rw [if_neg h1, if_neg h2]
      · rw [if_neg ha, mapGet_cons, mapGet_cons, ih]

theorem mapGet_mapOverwrite_self (l : List (Nat × ToolProg)) (i : Nat) (v : ToolProg)
    (h : mapHas l i = true) :
    mapGet (l.map (fun p => if p.1 = i then (i, v) else p)) i = some v := by
  induction l with
  | nil => simp [mapHas] at h
  | cons a t ih =>
      rw [List.map_cons]
      by_cases ha : a.1 = i
      · rw [if_pos ha, mapGet_cons, if_pos rfl]
      · rw [if_neg ha, mapGet_cons, if_neg ha]
        rw [mapHas_cons] at h
        simp [ha] at h
        exact ih h

theorem mapGet_append_single (l : List (Nat × ToolProg)) (i j : Nat) (v : ToolProg) :
    mapGet (l ++ [(i, v)]) j =
      match mapGet l j with
      | some t => some t
      | none => if i = j then some v else none := by
  induction l with
  | nil =>
      rw [List.nil_append, mapGet_cons, mapGet_nil]
  | cons a t ih =>
      rw [List.cons_append, mapGet_cons, mapGet_cons, ih]
      by_cases ha : a.1 = j <;> simp [ha]

theorem mapGet_mapSet (l : List (Nat × ToolProg)) (i j : Nat) (v : ToolProg) :
    mapGet (mapSet l i v) j = if j = i then some v else mapGet l j := by
  unfold mapSet
  by_cases h : mapHas l i = true
  · rw [if_pos h]
    by_cases hj : j = i
    · subst hj; rw [if_pos rfl, mapGet_mapOverwrite_self l j v h]
    · rw [if_neg hj, mapGet_mapOverwrite l i j v hj]
  · rw [if_neg h, mapGet_append_single]
    have hn : mapGet l i = none := mapGet_none l i (by simpa using h)
    by_cases hj : j = i
    · subst hj; rw [hn]
    · cases hg : mapGet l j with
      | some t => rw [if_neg hj]
      | none => rw [if_neg hj, if_neg (fun he => hj he.symm)]

theorem keysOf_nil : keysOf [] = [] := rfl

theorem keysOf_mapSet_mem (l : List (Nat × ToolProg)) (i : Nat) (v : ToolProg)
    (h : mapHas l i = true) : keysOf (mapSet l i v) = keysOf l := by
  unfold mapSet
  rw [if_pos h]
  unfold keysOf
  rw [List.map_map]
  apply List.map_congr_left
  intro p _
  dsimp [Function.comp]
  by_cases hp : p.1 = i
  · rw [if_pos hp]; exact hp.symm
  · rw [if_neg hp]

theorem keysOf_mapSet_new (l : List (Nat × ToolProg)) (i : Nat) (v : ToolProg)
    (h : mapHas l i = false) : keysOf (mapSet l i v) = keysOf l ++ [i] := by
  unfold mapSet
  rw [if_neg (by simp [h])]
  unfold keysOf
  rw [List.map_append]
  rfl

/-! ## The projector map evolution (C10) -/

theorem progAppend_empty (t : ToolProg) : progAppend t "" = t := by
  unfold progAppend
  rw [string_append_empty]

theorem progAppend_append (t : ToolProg) (a b : String) :
    progAppend (progAppend t a) b = progAppend t (a ++ b) := by
  unfold progAppend
  rw [string_append_assoc]

theorem fragStep_mapGet_self (l : List (Nat × ToolProg)) (f : DeltaToolFrag) :
    mapGet (fragStep l f) (f.index.getD 0) =
      some (match mapGet l (f.index.getD 0) with
            | some t => progAppend t (fragArg f)
            | none => progAppend ⟨f.id.strOr "", f.name.strOr "", ""⟩ (fragArg f)) := by
  simp only [fragStep]
  by_cases hh : mapHas l (f.index.getD 0) = true
  · rw [if_pos hh]
    obtain ⟨t, ht⟩ := mapHas_get l (f.index.getD 0) hh
    cases ha : f.arguments with
    | strVal s =>
        by_cases hs : s = ""
        · subst hs
          simp [ht, fragArg, ha, JsField.strOr, progAppend_empty]
        · simp [hs, ht, mapGet_mapSet, fragArg, ha, JsField.strOr]
    | absent => simp [ht, fragArg, ha, JsField.strOr, progAppend_empty]
    | nonString => simp [ht, fragArg, ha, JsField.strOr, progAppend_empty]
  · rw [if_neg hh]
    have hn : mapGet l (f.index.getD 0) = none := mapGet_none l _ (by simpa using hh)
    cases ha : f.arguments with
    | strVal s =>
        by_cases hs : s = ""
        · subst hs
          simp [hn, mapGet_mapSet, fragArg, ha, JsField.strOr, progAppend_empty]
        · simp [hs, hn, mapGet_mapSet, fragArg, ha, JsField.strOr]
    | absent => simp [hn, mapGet_mapSet, fragArg, ha, JsField.strOr, progAppend_empty]
    | nonString => simp [hn, mapGet_mapSet, fragArg, ha, JsField.strOr, progAppend_empty]

theorem fragStep_mapGet_ne (l : List (Nat × ToolProg)) (f : DeltaToolFrag) (j : Nat)
    (hne : j ≠ f.index.getD 0) :
    mapGet (fragStep l f) j = mapGet l j := by
  simp only [fragStep]
  by_cases hh : mapHas l (f.index.getD 0) = true
  · rw [if_pos hh]
    cases ha : f.arguments with
    | strVal s =>
        by_cases hs : s = ""
        · subst hs; simp
        · cases hg : mapGet l (f.index.getD 0) with
          | some t => simp [hs, hg, mapGet_mapSet, hne]
          | none => simp [hs, hg]
    | absent => simp [ha]
    | nonString => simp [ha]
  · rw [if_neg hh]
    have hset : mapGet (mapSet l (f.index.getD 0) ⟨f.id.strOr "", f.name.strOr "", ""⟩) j
        = mapGet l j := by
      rw [mapGet_mapSet, if_neg hne]
    cases ha : f.arguments with
    | strVal s =>
        by_cases hs : s = ""
        · subst hs; simpa using hset
        · cases hg : mapGet (mapSet l (f.index.getD 0) ⟨f.id.strOr "", f.name.strOr "", ""⟩)
              (f.index.getD 0) with
          | some t => simp [hs, hg, mapGet_mapSet, hne, hset]
          | none => simpa [hs, hg] using hset
    | absent => simpa [ha] using hset
    | nonString => simpa [ha] using hset

theorem foldl_fragStep_mapGet (frags : List DeltaToolFrag) :
    ∀ (l : List (Nat × ToolProg)) (i : Nat),
      mapGet (frags.foldl fragStep l) i =
        match mapGet l i, frags.filter (fun f => f.index.getD 0 = i) with
        | some t, fs => some (progAppend t (strConcat (fs.map fragArg)))
        | none, [] => none
        | none, f :: fs => some (progAppend ⟨f.id.strOr "", f.name.strOr "", ""⟩
            (strConcat ((f :: fs).map fragArg))) := by
  induction frags with
  | nil =>
      intro l i
      cases hs : mapGet l i <;> simp [hs, strConcat, progAppend_empty]
  | cons g gs ih =>
      intro l i
      rw [List.foldl_cons, ih]
      by_cases hgi : g.index.getD 0 = i
      · rw [← hgi, fragStep_mapGet_self]
        rw [hgi]
        cases hs : mapGet l i with
        | some t =>
            simp [hs, List.filter_cons, hgi, strConcat, progAppend_append]
        | none =>
            simp only [hs, List.filter_cons, hgi, decide_True, if_true]
            cases hg : gs.filter (fun f => f.index.getD 0 = i) <;>
              simp [hg, strConcat, progAppend_append]
      · rw [fragStep_mapGet_ne l g i (fun he => hgi he.symm)]
        have hf : (g :: gs).filter (fun f => f.index.getD 0 = i)
            = gs.filter (fun f => f.index.getD 0 = i) := by
          simp [List.filter_cons, hgi]
        rw [hf]

/-! ## State threading of the projector (C10) -/

theorem projFrag_fst (st : ProjState) (tc : DeltaToolFrag) :
    (projFrag st tc).1.inProgress = fragStep st.inProgress tc := by
  simp only [projFrag, fragStep]
  by_cases hh : mapHas st.inProgress (tc.index.getD 0) = true
  · cases ha : tc.arguments with
    | strVal s =>
        by_cases hs : s = ""
        · subst hs; simp [hh, ha]
        · cases hg : mapGet st.inProgress (tc.index.getD 0) with
          | some t => simp [hh, ha, hs, hg, progAppend]
          | none => simp [hh, ha, hs, hg]
    | absent => simp [hh, ha]
    | nonString => simp [hh, ha]
  · by_cases hq : (st.contentBlockStarted = true ∧ st.contentBlockStopped = false
        ∧ st.currentToolCallIndex = -1)
    · cases ha : tc.arguments with
      | strVal s =>
          by_cases hs : s = ""
          · subst hs; simp [hh, hq, ha]
          · cases hg : mapGet (mapSet st.inProgress (tc.index.getD 0)
                ⟨tc.id.strOr "", tc.name.strOr "", ""⟩) (tc.index.getD 0) with
            | some t => simp [hh, hq, ha, hs, hg, progAppend]
            | none => simp [hh, hq, ha, hs, hg]
      | absent => simp [hh, hq, ha]
      | nonString => simp [hh, hq, ha]
    · cases ha : tc.arguments with
      | strVal s =>
          by_cases hs : s = ""
          · subst hs; simp [hh, hq, ha]
          · cases hg : mapGet (mapSet st.inProgress (tc.index.getD 0)
                ⟨tc.id.strOr "", tc.name.strOr "", ""⟩) (tc.index.getD 0) with
            | some t => simp [hh, hq, ha, hs, hg, progAppend]
            | none => simp [hh, hq, ha, hs, hg]
      | absent => simp [hh, hq, ha]
      | nonString => simp [hh, hq, ha]

theorem projFrags_eq_fold (st : ProjState) (frags : List DeltaToolFrag) :
    projFrags st frags
      = frags.foldl (fun a tc => ((projFrag a.1 tc).1, a.2 ++ (projFrag a.1 tc).2)) (st, []) :=
  rfl

theorem projFrags_go_aux (frags : List DeltaToolFrag) : ∀ (st : ProjState) (acc : List AEvent),
    frags.foldl (fun a tc => ((projFrag a.1 tc).1, a.2 ++ (projFrag a.1 tc).2)) (st, acc)
      = ((projFragsGo st frags).1, acc ++ (projFragsGo st frags).2) := by
  induction frags with
  | nil => intro st acc; simp [projFragsGo]
  | cons g gs ih =>
      intro st acc
      rw [List.foldl_cons]
      show List.foldl (fun a tc => ((projFrag a.1 tc).1, a.2 ++ (projFrag a.1 tc).2))
          ((projFrag st g).1, acc ++ (projFrag st g).2) gs
        = ((projFragsGo st (g :: gs)).1, acc ++ (projFragsGo st (g :: gs)).2)
      rw [ih]
      simp [projFragsGo, List.append_assoc]

theorem projFrags_eq (st : ProjState) (frags : List DeltaToolFrag) :
    projFrags st frags = projFragsGo st frags := by
  rw [projFrags_eq_fold, projFrags_go_aux]
  simp

theorem projFragsGo_fst (frags : List DeltaToolFrag) : ∀ st : ProjState,
    (projFragsGo st frags).1.inProgress = frags.foldl fragStep st.inProgress := by
  induction frags with
  | nil => intro st; rfl
  | cons g gs ih =>
      intro st
      simp only [projFragsGo]
      rw [ih, List.foldl_cons, projFrag_fst]

theorem projText_state (st : ProjState) (d : UpDelta) :
    (projText st d).1.inProgress = st.inProgress
    ∧ (projText st d).1.closed = st.closed
    ∧ (projText st d).1.currentToolCallIndex = st.currentToolCallIndex
    ∧ (projText st d).1.sentMessageStart = st.sentMessageStart
    ∧ (projText st d).1.contentBlockStopped = st.contentBlockStopped := by
  simp only [projText]
  cases hpt : projTextContent d with
  | none => exact ⟨rfl, rfl, rfl, rfl, rfl⟩
  | some s =>
      by_cases hb : st.contentBlockStarted = true <;> by_cases hs : s = "" <;>
        simp [hb, hs]

theorem projDelta_inProgress (st : ProjState) (d : UpDelta) :
    (projDelta st d).1.inProgress = (d.tool_calls.getD []).foldl fragStep st.inProgress := by
  simp only [projDelta]
  cases htc : d.tool_calls with
  | none => simp [(projText_state st d).1]
  | some frags =>
      simp only [Option.getD_some]
      rw [projFrags_eq]
      show (projFragsGo (projText st d).1 frags).1.inProgress = _
      rw [projFragsGo_fst, (projText_state st d).1]

theorem projEvent_inProgress (st : ProjState) (e : UpEvent) (mdl : String) :
    (projEvent st e mdl).1.inProgress = (fragsOfEvent e).foldl fragStep st.inProgress := by
  simp only [projEvent]
  by_cases hsent : st.sentMessageStart = true
  · cases hd : e.delta with
    | none => cases hf : finishTruthy e <;> simp [hsent, hd, hf, fragsOfEvent]
    | some d =>
        cases hf : finishTruthy e <;>
          simp [hsent, hd, hf, fragsOfEvent, projDelta_inProgress]
  · cases hd : e.delta with
    | none => cases hf : finishTruthy e <;> simp [hsent, hd, hf, fragsOfEvent]
    | some d =>
        cases hf : finishTruthy e <;>
          simp [hsent, hd, hf, fragsOfEvent, projDelta_inProgress]

theorem projEvent_fin (st : ProjState) (e : UpEvent) (mdl : String) :
    (projEvent st e mdl).2.2 = (finishTruthy e).isSome := by
  simp only [projEvent]
  by_cases hsent : st.sentMessageStart = true <;>
    cases hd : e.delta <;> cases hf : finishTruthy e <;> simp [hsent, hd, hf]

theorem projRun_inProgress (mdl : String) (lines : List SseLine) : ∀ st : ProjState,
    (projRun mdl lines st).1.inProgress
      = (((processedEvents lines).map fragsOfEvent).flatten).foldl fragStep st.inProgress := by
  induction lines with
  | nil => intro st; simp [projRun, processedEvents]
  | cons l rest ih =>
      cases l with
      | doneMark => intro st; simp [projRun, processedEvents, ih]
      | junk => intro st; simp [projRun, processedEvents, ih]
      | ev e =>
          intro st
          have hfin := projEvent_fin st e mdl
          have hip := projEvent_inProgress st e mdl
          rcases hpe : projEvent st e mdl with ⟨st2, evs, fin⟩
          rw [hpe] at hfin hip
          simp only at hfin hip
          cases hf : (finishTruthy e).isSome with
          | true =>
              rw [hf] at hfin
              subst hfin
              simp [projRun, hpe, processedEvents, hf, hip]
          | false =>
              rw [hf] at hfin
              subst hfin
              simp [projRun, hpe, processedEvents, hf, hip, ih, List.foldl_append]

/-- C10: in both the SSE assembler and the Anthropic stream projector, a
tool-call slot is created by the first fragment seen for its index — its id,
(for the assembler) type, and name are those carried by that first fragment,
so id/type/name fields of later fragments with the same index are ignored —
and the slot's final arguments string is exactly the concatenation, in
arrival order, of the argument fragments of that index. -/
theorem c10_first_fragment_fixes_slot (lines : List SseLine) (i : Nat) (mdl : String) :
    (getSlot (finalSlots lines) i =
      match fragsAt i lines with
      | [] => none
      | f :: _ => some ⟨f.id.strOr "", f.type.strOr "function",
          ⟨f.name.strOr "", argsConcatAt i lines⟩⟩)
    ∧ (mapGet ((projRun mdl lines projInit).1.inProgress) i =
      match projFragsAt i lines with
      | [] => none
      | f :: _ => some ⟨f.id.strOr "", f.name.strOr "", projArgsAt i lines⟩) := by
  constructor
  · show getSlot ((allFragsOf lines).foldl asmFrag []) i = _
    rw [foldl_asmFrag_getSlot]
    show (match getSlot [] i, (allFragsOf lines).filter (fun f => f.index.getD 0 = i) with
      | some t, fs => some (appendArgs t (strConcat (fs.map fragArg)))
      | none, [] => none
      | none, f :: fs => some (appendArgs (initSlot f) (strConcat ((f :: fs).map fragArg)))) = _
    unfold fragsAt argsConcatAt fragsAt
    cases hf : (allFragsOf lines).filter (fun f => f.index.getD 0 = i) with
    | nil => rfl
    | cons f fs =>
        show some (appendArgs (initSlot f) (strConcat ((f :: fs).map fragArg))) = _
        simp [appendArgs, initSlot, string_nil_append]
  · rw [projRun_inProgress]
    show mapGet ((projAllFrags lines).foldl fragStep projInit.inProgress) i = _
    rw [foldl_fragStep_mapGet]
    show (match mapGet [] i, (projAllFrags lines).filter (fun f => f.index.getD 0 = i) with
      | some t, fs => some (progAppend t (strConcat (fs.map fragArg)))
      | none, [] => none
      | none, f :: fs => some (progAppend ⟨f.id.strOr "", f.name.strOr "", ""⟩
          (strConcat ((f :: fs).map fragArg)))) = _
    unfold projFragsAt projArgsAt projFragsAt
    cases hf : (projAllFrags lines).filter (fun f => f.index.getD 0 = i) with
    | nil => rfl
    | cons f fs =>
        show some (progAppend ⟨f.id.strOr "", f.name.strOr "", ""⟩
            (strConcat ((f :: fs).map fragArg))) = _
        simp [progAppend, string_nil_append]

/-! ## Checker steps and the closure sequence (C1) -/

theorem chkStep_delta_mem (ck : ChkState) (i : Nat) (d : ADelta)
    (hp : ck.phase = ChkPhase.inBlocks) (hc : ck.openBlocks.contains i = true) :
    chkStep ck (AEvent.blockDelta i d) = ck := by
  rcases ck with ⟨p, ob, ms⟩
  simp only at hp hc
  subst hp
  simp [chkStep, (natContains_iff ob i).mp hc]

theorem chkStep_stop_mem (ck : ChkState) (i : Nat)
    (hp : ck.phase = ChkPhase.inBlocks) (hc : ck.openBlocks.contains i = true) :
    chkStep ck (AEvent.blockStop i) = { ck with openBlocks := ck.openBlocks.erase i } := by
  rcases ck with ⟨p, ob, ms⟩
  simp only at hp hc
  subst hp
  simp [chkStep, (natContains_iff ob i).mp hc]

theorem chkStep_start_ok (ck : ChkState) (i : Nat) (b : ABlock)
    (hp : ck.phase = ChkPhase.inBlocks)
    (hm : (match ck.maxStarted with | none => true | some m => decide (m < i)) = true) :
    chkStep ck (AEvent.blockStart i b)
      = { ck with openBlocks := i :: ck.openBlocks, maxStarted := some i } := by
  rcases ck with ⟨p, ob, ms⟩
  simp only at hp hm
  subst hp
  simp [chkStep, hm]

theorem chkStep_msgdelta (ck : ChkState) (sr : String)
    (hp : ck.phase = ChkPhase.inBlocks) (hob : ck.openBlocks = []) :
    chkStep ck (AEvent.messageDelta sr) = { ck with phase := ChkPhase.afterMessageDelta } := by
  rcases ck with ⟨p, ob, ms⟩
  simp only at hp hob
  subst hp
  subst hob
  simp [chkStep]

theorem chkStep_msgstop (ck : ChkState) (hp : ck.phase = ChkPhase.afterMessageDelta) :
    chkStep ck AEvent.messageStop = { ck with phase := ChkPhase.accepted } := by
  rcases ck with ⟨p, ob, ms⟩
  simp only at hp
  subst hp
  simp [chkStep]

theorem chk_close_all (l : List Nat) : ∀ ck : ChkState, l.Nodup →
    ck.phase = ChkPhase.inBlocks → ck.openBlocks = l.reverse →
    ((l.map AEvent.blockStop).foldl chkStep ck).phase = ChkPhase.inBlocks
    ∧ ((l.map AEvent.blockStop).foldl chkStep ck).openBlocks = [] := by
  induction l with
  | nil =>
      intro ck _ hp hob
      exact ⟨hp, by simpa using hob⟩
  | cons a t ih =>
      intro ck hnd hp hob
      rw [List.map_cons, List.foldl_cons]
      have hmem : ck.openBlocks.contains a = true := by
        rw [hob, List.reverse_cons, natContains_iff]
        exact List.mem_append_right _ (by simp)
      rw [chkStep_stop_mem ck a hp hmem]
      have hnotm : a ∉ t.reverse := by
        rw [List.mem_reverse]
        exact (List.nodup_cons.mp hnd).1
      have hae : ck.openBlocks.erase a = t.reverse := by
        rw [hob, List.reverse_cons, List.erase_append_right _ hnotm]
        simp
      exact ih { ck with openBlocks := ck.openBlocks.erase a }
        (List.nodup_cons.mp hnd).2 (by simpa using hp) (by simpa using hae)

theorem contains_openListOf (st : ProjState) (i : Nat) (hi : i ∈ keysOf st.inProgress) :
    (openListOf st).contains (i + 1) = true := by
  rw [natContains_iff]
  unfold openListOf
  apply List.mem_append_left
  rw [List.mem_reverse]
  exact List.mem_map.mpr ⟨i, hi, rfl⟩

theorem chkInv_congr (st st2 : ProjState) (ck : ChkState) (ss : ScanState)
    (h : ChkInv st ck ss)
    (hk : keysOf st2.inProgress = keysOf st.inProgress)
    (h1 : st2.sentMessageStart = st.sentMessageStart)
    (h2 : st2.contentBlockStarted = st.contentBlockStarted)
    (h3 : st2.contentBlockStopped = st.contentBlockStopped)
    (h4 : st2.currentToolCallIndex = st.currentToolCallIndex)
    (h5 : st2.closed = st.closed) : ChkInv st2 ck ss := by
  have hol : openListOf st2 = openListOf st := by
    unfold openListOf
    rw [hk, h2, h3]
  exact {
    phase := by rw [h1]; exact h.phase
    blocks := by rw [hol]; exact h.blocks
    closedNil := by rw [h5]; exact h.closedNil
    curIff := by rw [h4, hk]; exact h.curIff
    maxChar := by rw [hk]; exact h.maxChar
    maxNone := by rw [h2, hk]; exact h.maxNone
    stopStart := by rw [h2, h3]; exact h.stopStart
    stopTool := by rw [h3, hk]; exact h.stopTool
    toolStop := by rw [hk, h2, h3]; exact h.toolStop
    idxs := by rw [hk]; exact h.idxs
    seenTool := by rw [hk]; exact h.seenTool
    nodup := by rw [hk]; exact h.nodup }

theorem projClosure_accepted (st : ProjState) (ck : ChkState) (ss : ScanState) (sr : String)
    (hInv : ChkInv st ck ss) (hsent : st.sentMessageStart = true) :
    ((projClosure st sr).foldl chkStep ck).phase = ChkPhase.accepted := by
  have hphase : ck.phase = ChkPhase.inBlocks := by rw [hInv.phase, if_pos hsent]
  have hfilter : st.inProgress.filter (fun p => ! st.closed.contains p.1) = st.inProgress := by
    rw [hInv.closedNil]
    apply List.filter_eq_self.mpr
    intro a _
    simp
  have hmap : (st.inProgress.map (fun p => AEvent.blockStop (p.1 + 1)))
      = ((keysOf st.inProgress).map (fun k => k + 1)).map AEvent.blockStop := by
    unfold keysOf
    rw [List.map_map, List.map_map]
    rfl
  unfold projClosure
  rw [hfilter, hmap]
  by_cases hts : (st.contentBlockStarted = true ∧ st.contentBlockStopped = false)
  · have hkeys : keysOf st.inProgress = [] := by
      by_contra hk
      have hcc := hInv.toolStop hk hts.1
      rw [hts.2] at hcc
      exact Bool.noConfusion hcc
    have hob : ck.openBlocks = [0] := by
      rw [hInv.blocks]
      unfold openListOf
      rw [hkeys]
      simp [hts.1, hts.2]
    rw [if_pos (show (st.contentBlockStarted = true ∧ ¬ st.contentBlockStopped = true) from
      ⟨hts.1, by simp [hts.2]⟩)]
    rw [hkeys]
    have hs1 : chkStep ck (AEvent.blockStop 0) = { ck with openBlocks := [] } := by
      rw [chkStep_stop_mem ck 0 hphase (by rw [hob]; rfl)]
      rw [hob]
      rfl
    simp only [List.map_nil, List.nil_append, List.cons_append, List.nil_append]
    rw [List.foldl_cons, hs1, List.foldl_cons,
      chkStep_msgdelta _ _ (by simpa using hphase) rfl, List.foldl_cons,
      chkStep_msgstop _ rfl, List.foldl_nil]
  · have hif : ¬ (st.contentBlockStarted = true ∧ ¬ st.contentBlockStopped = true) := by
      intro hcc
      refine hts ⟨hcc.1, ?_⟩
      cases hb : st.contentBlockStopped with
      | false => rfl
      | true => exact absurd hb hcc.2
    rw [if_neg hif]
    have hob : ck.openBlocks = ((keysOf st.inProgress).map (fun k => k + 1)).reverse := by
      rw [hInv.blocks]
      unfold openListOf
      rw [if_neg hif, List.append_nil]
    have hnd : ((keysOf st.inProgress).map (fun k => k + 1)).Nodup :=
      hInv.nodup.map (fun a b hab => by omega)
    obtain ⟨h1, h2⟩ := chk_close_all ((keysOf st.inProgress).map (fun k => k + 1)) ck hnd hphase hob
    rw [List.nil_append, List.foldl_append, List.foldl_cons, chkStep_msgdelta _ _ h1 h2,
      List.foldl_cons, chkStep_msgstop _ rfl, List.foldl_nil]

/-! ## Invariant preservation: tool-call fragments (C1) -/

theorem projFrag_eq (st : ProjState) (tc : DeltaToolFrag) :
    projFrag st tc
      = ((fragArgs (fragOpen st tc).1 (tc.index.getD 0) tc.arguments).1,
         (fragOpen st tc).2 ++ (fragArgs (fragOpen st tc).1 (tc.index.getD 0) tc.arguments).2) := by
  simp only [projFrag, fragOpen, fragArgs]
  by_cases hh : mapHas st.inProgress (tc.index.getD 0) = true
  · cases ha : tc.arguments with
    | strVal s =>
        by_cases hs : s = ""
        · subst hs; simp [hh, ha]
        · simp [hh, ha, hs]
    | absent => simp [hh, ha]
    | nonString => simp [hh, ha]
  · by_cases hq : (st.contentBlockStarted = true ∧ st.contentBlockStopped = false
        ∧ st.currentToolCallIndex = -1)
    · cases ha : tc.arguments with
      | strVal s =>
          by_cases hs : s = ""
          · subst hs; simp [hh, hq, ha]
          · simp [hh, hq, ha, hs]
      | absent => simp [hh, hq, ha]
      | nonString => simp [hh, hq, ha]
    · cases ha : tc.arguments with
      | strVal s =>
          by_cases hs : s = ""
          · subst hs; simp [hh, hq, ha]
          · simp [hh, hq, ha, hs]
      | absent => simp [hh, hq, ha]
      | nonString => simp [hh, hq, ha]

theorem fragArgs_inv (st : ProjState) (ck : ChkState) (ss : ScanState) (i : Nat)
    (args : JsField) (hInv : ChkInv st ck ss) (hsent : st.sentMessageStart = true)
    (hi : i ∈ keysOf st.inProgress) :
    ChkInv (fragArgs st i args).1 (((fragArgs st i args).2).foldl chkStep ck) ss
    ∧ (fragArgs st i args).1.sentMessageStart = true := by
  cases args with
  | strVal s =>
      by_cases hs : s = ""
      · subst hs
        have he : fragArgs st i (JsField.strVal "") = (st, []) := by simp [fragArgs]
        rw [he]
        exact ⟨hInv, hsent⟩
      · have he : fragArgs st i (JsField.strVal s)
            = ({ st with inProgress :=
                (match mapGet st.inProgress i with
                 | some t => mapSet st.inProgress i { t with arguments := t.arguments ++ s }
                 | none => st.inProgress) },
               [AEvent.blockDelta (i + 1) (.inputJsonDelta s)]) := by
          simp [fragArgs, hs]
        rw [he]
        have hphase : ck.phase = ChkPhase.inBlocks := by rw [hInv.phase, if_pos hsent]
        have hcont : ck.openBlocks.contains (i + 1) = true := by
          rw [hInv.blocks]
          exact contains_openListOf st i hi
        rw [List.foldl_cons, List.foldl_nil, chkStep_delta_mem ck (i + 1) _ hphase hcont]
        have hk : keysOf (match mapGet st.inProgress i with
            | some t => mapSet st.inProgress i { t with arguments := t.arguments ++ s }
            | none => st.inProgress) = keysOf st.inProgress := by
          cases hg : mapGet st.inProgress i with
          | some t => exact keysOf_mapSet_mem _ _ _ ((mapHas_iff _ _).mpr hi)
          | none => rfl
        refine ⟨chkInv_congr st _ ck ss hInv ?_ rfl rfl rfl rfl rfl, hsent⟩
        exact hk
  | absent => exact ⟨hInv, hsent⟩
  | nonString => exact ⟨hInv, hsent⟩

theorem fragOpen_inv (st : ProjState) (ck : ChkState) (ss : ScanState) (tc : DeltaToolFrag)
    (hInv : ChkInv st ck ss) (hsent : st.sentMessageStart = true)
    (hok : (scanFrag ss tc).ok = true) :
    ChkInv (fragOpen st tc).1 (((fragOpen st tc).2).foldl chkStep ck) (scanFrag ss tc)
    ∧ (fragOpen st tc).1.sentMessageStart = true
    ∧ tc.index.getD 0 ∈ keysOf (fragOpen st tc).1.inProgress := by
  have hphase : ck.phase = ChkPhase.inBlocks := by rw [hInv.phase, if_pos hsent]
  by_cases hh : mapHas st.inProgress (tc.index.getD 0) = true
  · have hikeys : tc.index.getD 0 ∈ keysOf st.inProgress := (mapHas_iff _ _).mp hh
    have hmem : tc.index.getD 0 ∈ ss.seenIdxs := by
      rw [hInv.idxs]
      exact hikeys
    have hsf : scanFrag ss tc = { ss with seenTool := true } := by
      simp [scanFrag, hmem]
    have hfo : fragOpen st tc = (st, []) := by simp [fragOpen, hh]
    rw [hfo, hsf]
    refine ⟨?_, hsent, hikeys⟩
    exact { hInv with
      idxs := hInv.idxs
      seenTool := ⟨fun _ => List.ne_nil_of_mem hikeys, fun _ => rfl⟩ }
  · have hikeys : tc.index.getD 0 ∉ keysOf st.inProgress :=
      fun hmem => hh ((mapHas_iff _ _).mpr hmem)
    have hnotmem : tc.index.getD 0 ∉ ss.seenIdxs := by
      rw [hInv.idxs]
      exact hikeys
    have hforall : ∀ x ∈ ss.seenIdxs, x < tc.index.getD 0 := by
      by_contra hna
      have hsf2 : (scanFrag ss tc).ok = false := by
        simp only [scanFrag]
        rw [if_neg (fun hc => hnotmem ((natContains_iff _ _).mp hc))]
        rw [if_neg (fun hb => hna (fun x hx => by
          simpa using List.all_eq_true.mp hb x hx))]
      rw [hsf2] at hok
      exact Bool.noConfusion hok
    have hall : ∀ j ∈ keysOf st.inProgress, j < tc.index.getD 0 := by
      intro j hj
      exact hforall j (hInv.idxs ▸ hj)
    have hsf : scanFrag ss tc = ⟨true, ss.seenIdxs ++ [tc.index.getD 0], ss.ok⟩ := by
      simp [scanFrag, hnotmem]
      exact hforall
    by_cases hq : (st.contentBlockStarted = true ∧ st.contentBlockStopped = false
        ∧ st.currentToolCallIndex = -1)
    · have hkeys : keysOf st.inProgress = [] := hInv.curIff.mp hq.2.2
      have hkeys2 : keysOf (mapSet st.inProgress (tc.index.getD 0)
          ⟨tc.id.strOr "", tc.name.strOr "", ""⟩) = [tc.index.getD 0] := by
        rw [keysOf_mapSet_new _ _ _ (by simpa using hh), hkeys]
        rfl
      have hfo : fragOpen st tc
          = ({ st with
                contentBlockStopped := true
                currentToolCallIndex := ((tc.index.getD 0 : Nat) : Int)
                inProgress := mapSet st.inProgress (tc.index.getD 0)
                  ⟨tc.id.strOr "", tc.name.strOr "", ""⟩ },
             [AEvent.blockStop 0,
              AEvent.blockStart (tc.index.getD 0 + 1)
                (.toolUse (tc.id.strOr "") (tc.name.strOr ""))]) := by
        simp [fragOpen, hh, hq]
      rw [hfo, hsf]
      have hob : ck.openBlocks = [0] := by
        rw [hInv.blocks]
        unfold openListOf
        rw [hkeys]
        simp [hq.1, hq.2.1]
      have hstep1 : chkStep ck (AEvent.blockStop 0) = { ck with openBlocks := [] } := by
        rw [chkStep_stop_mem ck 0 hphase (by rw [hob]; rfl)]
        rw [hob]
        rfl
      have hm1 : (match ({ ck with openBlocks := ([] : List Nat) }).maxStarted with
          | none => true
          | some m => decide (m < tc.index.getD 0 + 1)) = true := by
        rcases hInv.maxChar with h0 | h0 | ⟨k, hk, h0⟩
        · simp only [h0]
        · simp only [h0]
          simp
        · rw [hkeys] at hk
          cases hk
      have hstep2 : chkStep { ck with openBlocks := ([] : List Nat) }
            (AEvent.blockStart (tc.index.getD 0 + 1)
              (.toolUse (tc.id.strOr "") (tc.name.strOr "")))
          = { ck with
                openBlocks := [tc.index.getD 0 + 1]
                maxStarted := some (tc.index.getD 0 + 1) } := by
        rw [chkStep_start_ok _ _ _ (by simpa using hphase) hm1]
      rw [List.foldl_cons, List.foldl_cons, List.foldl_nil, hstep1, hstep2]
      refine ⟨?_, hsent, ?_⟩
      · exact {
          phase := by simp [hsent, hphase]
          blocks := by
            show [tc.index.getD 0 + 1] = openListOf _
            unfold openListOf
            rw [hkeys2]
            simp
          closedNil := hInv.closedNil
          curIff := by
            show ((tc.index.getD 0 : Nat) : Int) = -1 ↔ keysOf (mapSet st.inProgress
              (tc.index.getD 0) ⟨tc.id.strOr "", tc.name.strOr "", ""⟩) = []
            rw [hkeys2]
            constructor
            · intro hcur; exact absurd hcur (by omega)
            · intro hnil; exact absurd hnil (by simp)
          maxChar := Or.inr (Or.inr ⟨tc.index.getD 0, by rw [hkeys2]; simp, rfl⟩)
          maxNone := by
            intro _ h2
            rw [hkeys2] at h2
            exact absurd h2 (by simp)
          stopStart := fun _ => hq.1
          stopTool := by
            intro _
            rw [hkeys2]
            simp
          toolStop := fun _ _ => rfl
          idxs := by
            show ss.seenIdxs ++ [tc.index.getD 0] = _
            rw [hkeys2, hInv.idxs, hkeys]
            rfl
          seenTool := by
            rw [hkeys2]
            simp
          nodup := by
            rw [hkeys2]
            simp }
      · show tc.index.getD 0 ∈ keysOf (mapSet st.inProgress (tc.index.getD 0)
          ⟨tc.id.strOr "", tc.name.strOr "", ""⟩)
        rw [hkeys2]
        simp
    · have hkeys2 : keysOf (mapSet st.inProgress (tc.index.getD 0)
          ⟨tc.id.strOr "", tc.name.strOr "", ""⟩)
          = keysOf st.inProgress ++ [tc.index.getD 0] :=
        keysOf_mapSet_new _ _ _ (by simpa using hh)
      have hfo : fragOpen st tc
          = ({ st with
                currentToolCallIndex := ((tc.index.getD 0 : Nat) : Int)
                inProgress := mapSet st.inProgress (tc.index.getD 0)
                  ⟨tc.id.strOr "", tc.name.strOr "", ""⟩ },
             [AEvent.blockStart (tc.index.getD 0 + 1)
                (.toolUse (tc.id.strOr "") (tc.name.strOr ""))]) := by
        simp [fragOpen, hh, hq]
      rw [hfo, hsf]
      have hm1 : (match ck.maxStarted with
          | none => true
          | some m => decide (m < tc.index.getD 0 + 1)) = true := by
        rcases hInv.maxChar with h0 | h0 | ⟨k, hk, h0⟩
        · simp only [h0]
        · simp only [h0]
          simp
        · simp only [h0]
          have := hall k hk
          simp
          omega
      have hstep : chkStep ck (AEvent.blockStart (tc.index.getD 0 + 1)
            (.toolUse (tc.id.strOr "") (tc.name.strOr "")))
          = { ck with
                openBlocks := (tc.index.getD 0 + 1) :: ck.openBlocks
                maxStarted := some (tc.index.getD 0 + 1) } :=
        chkStep_start_ok ck _ _ hphase hm1
      rw [List.foldl_cons, List.foldl_nil, hstep]
      have hts : st.contentBlockStarted = true → st.contentBlockStopped = true := by
        intro hstart
        cases hstop : st.contentBlockStopped with
        | true => rfl
        | false =>
            have hcur : ¬ st.currentToolCallIndex = -1 := by
              intro hc
              exact hq ⟨hstart, hstop, hc⟩
            have hkne : keysOf st.inProgress ≠ [] := fun hnil => hcur (hInv.curIff.mpr hnil)
            have hcc := hInv.toolStop hkne hstart
            rw [hstop] at hcc
            exact hcc
      refine ⟨?_, hsent, ?_⟩
      · exact {
          phase := by simp [hsent, hphase]
          blocks := by
            show (tc.index.getD 0 + 1) :: ck.openBlocks = openListOf _
            rw [hInv.blocks]
            unfold openListOf
            rw [hkeys2]
            simp
          closedNil := hInv.closedNil
          curIff := by
            show ((tc.index.getD 0 : Nat) : Int) = -1 ↔ keysOf (mapSet st.inProgress
              (tc.index.getD 0) ⟨tc.id.strOr "", tc.name.strOr "", ""⟩) = []
            rw [hkeys2]
            constructor
            · intro hcur; exact absurd hcur (by omega)
            · intro hnil; exact absurd hnil (by simp)
          maxChar := Or.inr (Or.inr ⟨tc.index.getD 0, by rw [hkeys2]; simp, rfl⟩)
          maxNone := by
            intro _ h2
            rw [hkeys2] at h2
            exact absurd h2 (by simp)
          stopStart := hInv.stopStart
          stopTool := by
            intro _
            rw [hkeys2]
            simp
          toolStop := fun _ hstart => hts hstart
          idxs := by
            show ss.seenIdxs ++ [tc.index.getD 0] = _
            rw [hkeys2, hInv.idxs]
          seenTool := by
            rw [hkeys2]
            simp
          nodup := by
            rw [hkeys2]
            refine List.nodup_append.mpr ⟨hInv.nodup, List.nodup_singleton _, ?_⟩
            intro a ha hb
            rw [List.mem_singleton] at hb
            subst hb
            exact absurd (hall _ ha) (lt_irrefl _) }
      · show tc.index.getD 0 ∈ keysOf (mapSet st.inProgress (tc.index.getD 0)
          ⟨tc.id.strOr "", tc.name.strOr "", ""⟩)
        rw [hkeys2]
        simp

theorem projFrag_inv (st : ProjState) (ck : ChkState) (ss : ScanState) (tc : DeltaToolFrag)
    (hInv : ChkInv st ck ss) (hsent : st.sentMessageStart = true)
    (hok : (scanFrag ss tc).ok = true) :
    ChkInv (projFrag st tc).1 (((projFrag st tc).2).foldl chkStep ck) (scanFrag ss tc)
    ∧ (projFrag st tc).1.sentMessageStart = true := by
  rw [projFrag_eq]
  obtain ⟨hInv1, hsent1, hmem1⟩ := fragOpen_inv st ck ss tc hInv hsent hok
  obtain ⟨hInv2, hsent2⟩ := fragArgs_inv (fragOpen st tc).1
    (((fragOpen st tc).2).foldl chkStep ck) (scanFrag ss tc) (tc.index.getD 0)
    tc.arguments hInv1 hsent1 hmem1
  constructor
  · show ChkInv (fragArgs (fragOpen st tc).1 (tc.index.getD 0) tc.arguments).1
      (((fragOpen st tc).2
        ++ (fragArgs (fragOpen st tc).1 (tc.index.getD 0) tc.arguments).2).foldl chkStep ck)
      (scanFrag ss tc)
    rw [List.foldl_append]
    exact hInv2
  · exact hsent2

theorem projFragsGo_inv (frags : List DeltaToolFrag) :
    ∀ (st : ProjState) (ck : ChkState) (ss : ScanState),
    ChkInv st ck ss → st.sentMessageStart = true →
    ((frags.foldl scanFrag ss).ok = true) →
    ChkInv (projFragsGo st frags).1 (((projFragsGo st frags).2).foldl chkStep ck)
      (frags.foldl scanFrag ss)
    ∧ (projFragsGo st frags).1.sentMessageStart = true := by
  induction frags with
  | nil => intro st ck ss hInv hsent _; exact ⟨hInv, hsent⟩
  | cons g gs ih =>
      intro st ck ss hInv hsent hok
      have hok1 : (scanFrag ss g).ok = true := scanFrags_ok_mono gs _ (by simpa using hok)
      obtain ⟨hInv1, hsent1⟩ := projFrag_inv st ck ss g hInv hsent hok1
      obtain ⟨hInv2, hsent2⟩ := ih (projFrag st g).1 (((projFrag st g).2).foldl chkStep ck)
        (scanFrag ss g) hInv1 hsent1 (by simpa using hok)
      constructor
      · show ChkInv (projFragsGo (projFrag st g).1 gs).1
          (((projFrag st g).2 ++ (projFragsGo (projFrag st g).1 gs).2).foldl chkStep ck)
          ((g :: gs).foldl scanFrag ss)
        rw [List.foldl_append, List.foldl_cons]
        exact hInv2
      · exact hsent2

theorem projText_inv (st : ProjState) (ck : ChkState) (ss : ScanState) (d : UpDelta)
    (hInv : ChkInv st ck ss) (hsent : st.sentMessageStart = true)
    (htool : ∀ s, projTextContent d = some s → ss.seenTool = false) :
    ChkInv (projText st d).1 (((projText st d).2).foldl chkStep ck) ss
    ∧ (projText st d).1.sentMessageStart = true := by
  cases hpt : projTextContent d with
  | none =>
      have he : projText st d = (st, []) := by simp [projText, hpt]
      rw [he]
      exact ⟨hInv, hsent⟩
  | some s =>
      have hnotool : ss.seenTool = false := htool s hpt
      have hkeys : keysOf st.inProgress = [] := by
        by_contra hk
        have hcc := hInv.seenTool.mpr hk
        rw [hnotool] at hcc
        exact Bool.noConfusion hcc
      have hstop : st.contentBlockStopped = false := by
        cases hb : st.contentBlockStopped with
        | false => rfl
        | true => exact absurd hkeys (hInv.stopTool hb)
      have hphase : ck.phase = ChkPhase.inBlocks := by rw [hInv.phase, if_pos hsent]
      by_cases hb : st.contentBlockStarted = true
      · by_cases hs : s = ""
        · have he : projText st d = (st, []) := by simp [projText, hpt, hb, hs]
          rw [he]
          exact ⟨hInv, hsent⟩
        · have he : projText st d = (st, [AEvent.blockDelta 0 (.textDelta s)]) := by
            simp [projText, hpt, hb, hs]
          rw [he]
          have hcont : ck.openBlocks.contains 0 = true := by
            rw [hInv.blocks]
            unfold openListOf
            rw [hkeys]
            simp [hb, hstop]
          rw [List.foldl_cons, List.foldl_nil, chkStep_delta_mem ck 0 _ hphase hcont]
          exact ⟨hInv, hsent⟩
      · have hb2 : st.contentBlockStarted = false := by
          cases hbb : st.contentBlockStarted with
          | false => rfl
          | true => exact absurd hbb hb
        have hmax : ck.maxStarted = none := hInv.maxNone hb2 hkeys
        have hob : ck.openBlocks = [] := by
          rw [hInv.blocks]
          unfold openListOf
          rw [hkeys]
          simp [hb2]
        have hstep1 : chkStep ck (AEvent.blockStart 0 .textBlock)
            = { ck with openBlocks := [0], maxStarted := some 0 } := by
          rw [chkStep_start_ok ck 0 _ hphase (by rw [hmax])]
          rw [hob]
        have hInv1 : ChkInv { st with contentBlockStarted := true }
            { ck with openBlocks := [0], maxStarted := some 0 } ss := {
          phase := by simp [hsent, hphase]
          blocks := by
            show [0] = openListOf _
            unfold openListOf
            rw [hkeys]
            simp [hstop]
          closedNil := hInv.closedNil
          curIff := hInv.curIff
          maxChar := Or.inr (Or.inl rfl)
          maxNone := by
            intro h1 _
            exact absurd h1 (by simp)
          stopStart := fun _ => rfl
          stopTool := fun hstop2 => by
            have hcc : st.contentBlockStopped = true := hstop2
            rw [hstop] at hcc
            exact Bool.noConfusion hcc
          toolStop := fun hk _ => absurd hkeys hk
          idxs := hInv.idxs
          seenTool := hInv.seenTool
          nodup := hInv.nodup }
        by_cases hs : s = ""
        · have he : projText st d = ({ st with contentBlockStarted := true },
              [AEvent.blockStart 0 .textBlock]) := by
            simp [projText, hpt, hb, hs]
          rw [he, List.foldl_cons, List.foldl_nil, hstep1]
          exact ⟨hInv1, hsent⟩
        · have he : projText st d = ({ st with contentBlockStarted := true },
              [AEvent.blockStart 0 .textBlock, AEvent.blockDelta 0 (.textDelta s)]) := by
            simp [projText, hpt, hb, hs]
          rw [he, List.foldl_cons, List.foldl_cons, List.foldl_nil, hstep1]
          have hstep2 : chkStep { ck with openBlocks := [0], maxStarted := some 0 }
              (AEvent.blockDelta 0 (.textDelta s))
              = { ck with openBlocks := [0], maxStarted := some 0 } :=
            chkStep_delta_mem _ 0 _ hphase rfl
          rw [hstep2]
          exact ⟨hInv1, hsent⟩

theorem projDelta_inv (st : ProjState) (ck : ChkState) (ss : ScanState) (d : UpDelta)
    (hInv : ChkInv st ck ss) (hsent : st.sentMessageStart = true)
    (hok : ((d.tool_calls.getD []).foldl scanFrag ss).ok = true)
    (htool : ∀ s, projTextContent d = some s → ss.seenTool = false) :
    ChkInv (projDelta st d).1 (((projDelta st d).2).foldl chkStep ck)
      ((d.tool_calls.getD []).foldl scanFrag ss)
    ∧ (projDelta st d).1.sentMessageStart = true := by
  obtain ⟨hInvT, hsentT⟩ := projText_inv st ck ss d hInv hsent htool
  cases htc : d.tool_calls with
  | none =>
      have he : projDelta st d = projText st d := by simp [projDelta, htc]
      rw [he]
      exact ⟨hInvT, hsentT⟩
  | some frags =>
      have he : projDelta st d
          = ((projFragsGo (projText st d).1 frags).1,
             (projText st d).2 ++ (projFragsGo (projText st d).1 frags).2) := by
        simp [projDelta, htc, projFrags_eq]
      rw [he]
      obtain ⟨hInv2, hsent2⟩ := projFragsGo_inv frags (projText st d).1
        (((projText st d).2).foldl chkStep ck) ss hInvT hsentT
        (by rw [htc] at hok; simpa using hok)
      constructor
      · show ChkInv (projFragsGo (projText st d).1 frags).1
          (((projText st d).2 ++ (projFragsGo (projText st d).1 frags).2).foldl chkStep ck)
          ((Option.getD (some frags) []).foldl scanFrag ss)
        rw [List.foldl_append]
        simpa using hInv2
      · exact hsent2

theorem projEvent_inv (st : ProjState) (ck : ChkState) (ss : ScanState) (e : UpEvent)
    (mdl : String) (hInv : ChkInv st ck ss) (hok : (scanEvent ss e).ok = true) :
    ((projEvent st e mdl).2.2 = false →
        ChkInv (projEvent st e mdl).1 (((projEvent st e mdl).2.1).foldl chkStep ck)
          (scanEvent ss e)
        ∧ (projEvent st e mdl).1.sentMessageStart = true)
    ∧ ((projEvent st e mdl).2.2 = true →
        (((projEvent st e mdl).2.1).foldl chkStep ck).phase = ChkPhase.accepted) := by
  cases hd : e.delta with
  | none =>
      have hscan : scanEvent ss e = ss := by simp [scanEvent, hd]
      by_cases hsent : st.sentMessageStart = true
      · cases hf : finishTruthy e with
        | none =>
            have he : projEvent st e mdl = (st, [], false) := by
              simp [projEvent, hsent, hd, hf]
            rw [he, hscan]
            exact ⟨fun _ => ⟨hInv, hsent⟩, fun h => Bool.noConfusion h⟩
        | some fr =>
            have he : projEvent st e mdl = (st, projClosure st (stopReasonMap fr), true) := by
              simp [projEvent, hsent, hd, hf]
            rw [he]
            exact ⟨fun h => Bool.noConfusion h,
              fun _ => projClosure_accepted st ck ss (stopReasonMap fr) hInv hsent⟩
      · have hsent2 : st.sentMessageStart = false := by
          cases hbb : st.sentMessageStart with
          | false => rfl
          | true => exact absurd hbb hsent
        have hphase0 : ck.phase = ChkPhase.expectStart := by
          rw [hInv.phase]
          simp [hsent2]
        have hms : ∀ M, chkStep ck (AEvent.messageStart M)
            = { ck with phase := ChkPhase.inBlocks } := by
          intro M
          rcases ck with ⟨p, ob, ms⟩
          simp only at hphase0
          subst hphase0
          simp [chkStep]
        have hInv0 : ChkInv { st with sentMessageStart := true }
            { ck with phase := ChkPhase.inBlocks } ss := {
          phase := by simp
          blocks := hInv.blocks
          closedNil := hInv.closedNil
          curIff := hInv.curIff
          maxChar := hInv.maxChar
          maxNone := hInv.maxNone
          stopStart := hInv.stopStart
          stopTool := hInv.stopTool
          toolStop := hInv.toolStop
          idxs := hInv.idxs
          seenTool := hInv.seenTool
          nodup := hInv.nodup }
        cases hf : finishTruthy e with
        | none =>
            have he : projEvent st e mdl = ({ st with sentMessageStart := true },
                [AEvent.messageStart (match e.model with
                  | some m => if m = "" then mdl else m
                  | none => mdl)], false) := by
              simp [projEvent, hsent2, hd, hf]
            rw [he, hscan]
            refine ⟨fun _ => ⟨?_, rfl⟩, fun h => Bool.noConfusion h⟩
            rw [List.foldl_cons, List.foldl_nil, hms _]
            exact hInv0
        | some fr =>
            have he : projEvent st e mdl = ({ st with sentMessageStart := true },
                AEvent.messageStart (match e.model with
                  | some m => if m = "" then mdl else m
                  | none => mdl)
                  :: projClosure { st with sentMessageStart := true } (stopReasonMap fr),
                true) := by
              simp [projEvent, hsent2, hd, hf]
            rw [he]
            refine ⟨fun h => Bool.noConfusion h, fun _ => ?_⟩
            rw [List.foldl_cons, hms _]
            exact projClosure_accepted _ _ ss _ hInv0 rfl
  | some d =>
      have htool : ∀ s, projTextContent d = some s → ss.seenTool = false := by
        intro s hpt
        cases hst : ss.seenTool with
        | false => rfl
        | true =>
            exfalso
            have hsc : scanEvent ss e = (d.tool_calls.getD []).foldl scanFrag
                { ss with ok := false } := by
              cases htc : d.tool_calls <;> simp [scanEvent, hd, hpt, hst, htc]
            rw [hsc] at hok
            have hff := scanFrags_ok_false (d.tool_calls.getD []) { ss with ok := false } rfl
            rw [hok] at hff
            exact Bool.noConfusion hff
      have hscan : scanEvent ss e = (d.tool_calls.getD []).foldl scanFrag ss := by
        cases hpt : projTextContent d with
        | none => cases htc : d.tool_calls <;> simp [scanEvent, hd, hpt, htc]
        | some s =>
            have hns := htool s hpt
            cases htc : d.tool_calls <;> simp [scanEvent, hd, hpt, hns, htc]
      have hokf : ((d.tool_calls.getD []).foldl scanFrag ss).ok = true := by
        rw [← hscan]
        exact hok
      by_cases hsent : st.sentMessageStart = true
      · obtain ⟨hInvD, hsentD⟩ := projDelta_inv st ck ss d hInv hsent hokf htool
        cases hf : finishTruthy e with
        | none =>
            have he : projEvent st e mdl
                = ((projDelta st d).1, (projDelta st d).2, false) := by
              simp [projEvent, hsent, hd, hf]
            rw [he, hscan]
            exact ⟨fun _ => ⟨hInvD, hsentD⟩, fun h => Bool.noConfusion h⟩
        | some fr =>
            have he : projEvent st e mdl = ((projDelta st d).1,
                (projDelta st d).2 ++ projClosure (projDelta st d).1 (stopReasonMap fr),
                true) := by
              simp [projEvent, hsent, hd, hf]
            rw [he]
            refine ⟨fun h => Bool.noConfusion h, fun _ => ?_⟩
            show (((projDelta st d).2
              ++ projClosure (projDelta st d).1 (stopReasonMap fr)).foldl chkStep ck).phase = _
            rw [List.foldl_append]
            exact projClosure_accepted _ _ _ _ hInvD hsentD
      · have hsent2 : st.sentMessageStart = false := by
          cases hbb : st.sentMessageStart with
          | false => rfl
          | true => exact absurd hbb hsent
        have hphase0 : ck.phase = ChkPhase.expectStart := by
          rw [hInv.phase]
          simp [hsent2]
        have hms : ∀ M, chkStep ck (AEvent.messageStart M)
            = { ck with phase := ChkPhase.inBlocks } := by
          intro M
          rcases ck with ⟨p, ob, ms⟩
          simp only at hphase0
          subst hphase0
          simp [chkStep]
        have hInv0 : ChkInv { st with sentMessageStart := true }
            { ck with phase := ChkPhase.inBlocks } ss := {
          phase := by simp
          blocks := hInv.blocks
          closedNil := hInv.closedNil
          curIff := hInv.curIff
          maxChar := hInv.maxChar
          maxNone := hInv.maxNone
          stopStart := hInv.stopStart
          stopTool := hInv.stopTool
          toolStop := hInv.toolStop
          idxs := hInv.idxs
          seenTool := hInv.seenTool
          nodup := hInv.nodup }
        obtain ⟨hInvD, hsentD⟩ := projDelta_inv { st with sentMessageStart := true }
          { ck with phase := ChkPhase.inBlocks } ss d hInv0 rfl hokf htool
        cases hf : finishTruthy e with
        | none =>
            have he : projEvent st e mdl
                = ((projDelta { st with sentMessageStart := true } d).1,
                   AEvent.messageStart (match e.model with
                     | some m => if m = "" then mdl else m
                     | none => mdl)
                     :: (projDelta { st with sentMessageStart := true } d).2,
                   false) := by
              simp [projEvent, hsent2, hd, hf]
            rw [he, hscan]
            refine ⟨fun _ => ⟨?_, hsentD⟩, fun h => Bool.noConfusion h⟩
            rw [List.foldl_cons, hms _]
            exact hInvD
        | some fr =>
            have he : projEvent st e mdl
                = ((projDelta { st with sentMessageStart := true } d).1,
                   AEvent.messageStart (match e.model with
                     | some m => if m = "" then mdl else m
                     | none => mdl)
                     :: ((projDelta { st with sentMessageStart := true } d).2
                        ++ projClosure (projDelta { st with sentMessageStart := true } d).1
                            (stopReasonMap fr)),
                   true) := by
              simp [projEvent, hsent2, hd, hf]
            rw [he]
            refine ⟨fun h => Bool.noConfusion h, fun _ => ?_⟩
            rw [List.foldl_cons, hms _, List.foldl_append]
            exact projClosure_accepted _ _ _ _ hInvD hsentD

theorem projRun_chk (mdl : String) (lines : List SseLine) :
    ∀ (st : ProjState) (ck : ChkState) (ss : ScanState),
    ChkInv st ck ss →
    ((allEventsOf lines).foldl scanEvent ss).ok = true →
    (st.sentMessageStart = true ∨ allEventsOf lines ≠ []) →
    (((projRun mdl lines st).2).foldl chkStep ck).phase = ChkPhase.accepted := by
  induction lines with
  | nil =>
      intro st ck ss hInv _ hne
      have hsent : st.sentMessageStart = true := by
        rcases hne with h | h
        · exact h
        · exact absurd rfl h
      show ((projClosure st "end_turn").foldl chkStep ck).phase = _
      exact projClosure_accepted st ck ss "end_turn" hInv hsent
  | cons l rest ih =>
      intro st ck ss hInv hok hne
      cases l with
      | doneMark =>
          have ha : allEventsOf (SseLine.doneMark :: rest) = allEventsOf rest := by
            simp [allEventsOf, lineEvents]
          rw [ha] at hok hne
          show (((projRun mdl rest st).2).foldl chkStep ck).phase = _
          exact ih st ck ss hInv hok hne
      | junk =>
          have ha : allEventsOf (SseLine.junk :: rest) = allEventsOf rest := by
            simp [allEventsOf, lineEvents]
          rw [ha] at hok hne
          show (((projRun mdl rest st).2).foldl chkStep ck).phase = _
          exact ih st ck ss hInv hok hne
      | ev e =>
          have ha : allEventsOf (SseLine.ev e :: rest) = e :: allEventsOf rest := by
            simp [allEventsOf, lineEvents]
          rw [ha, List.foldl_cons] at hok
          have hoke : (scanEvent ss e).ok = true := scanEvents_ok_mono _ _ hok
          have hpe := projEvent_inv st ck ss e mdl hInv hoke
          rcases hpt : projEvent st e mdl with ⟨st2, evs, fin⟩
          rw [hpt] at hpe
          simp only at hpe
          cases fin with
          | true =>
              simp only [projRun, hpt]
              exact hpe.2 rfl
          | false =>
              simp only [projRun, hpt]
              obtain ⟨hInv2, hsent2⟩ := hpe.1 rfl
              show ((evs ++ (projRun mdl rest st2).2).foldl chkStep ck).phase = _
              rw [List.foldl_append]
              exact ih st2 (evs.foldl chkStep ck) (scanEvent ss e) hInv2 hok (Or.inl hsent2)

/-- C1 counterexample: for the stream of §8 example 1 — text, then a tool-call
fragment, then more text — the projector emits `content_block_delta(0)` after
`content_block_stop(0)`, so the emitted sequence is not a valid Anthropic
sequence.  The unconditional claim is false. -/
theorem c1_counterexample :
    validAnthropic (projAnthropic exC1Stream "m") = false := by decide

/-- C1 (amended): for an upstream stream in which no text or reasoning delta
occurs at or after the first tool-call fragment, tool indices first appear in
strictly ascending order, and at least one event parses, the event sequence
emitted by the Anthropic stream projector is a valid Anthropic sequence:
exactly one `message_start` first, then fully-balanced
`content_block_start`/`content_block_stop` pairs with strictly increasing
indices, every `content_block_delta(i)` inside the block `i` lifetime, then
one `message_delta` and one `message_stop`. -/
theorem c1_projector_valid (lines : List SseLine) (mdl : String)
    (hok : streamOK lines = true) (hne : (allEventsOf lines).isEmpty = false) :
    validAnthropic (projAnthropic lines mdl) = true := by
  have hne2 : allEventsOf lines ≠ [] := by
    intro h
    rw [h] at hne
    simp at hne
  have hInit : ChkInv projInit chkInit scanInit := {
    phase := by decide
    blocks := by decide
    closedNil := rfl
    curIff := by decide
    maxChar := Or.inl rfl
    maxNone := fun _ _ => rfl
    stopStart := fun h => absurd h (by decide)
    stopTool := fun h => absurd h (by decide)
    toolStop := fun h _ => absurd rfl h
    idxs := rfl
    seenTool := by decide
    nodup := List.nodup_nil }
  have h := projRun_chk mdl lines projInit chkInit scanInit hInit hok (Or.inr hne2)
  unfold validAnthropic projAnthropic
  rw [h]

/-- Witness: the §8 scenario-5 stream (text, then a tool call with two
argument fragments, then `finish_reason:"tool_calls"`) satisfies the stream
conditions and yields a valid Anthropic sequence. -/
theorem c1_projector_valid_witness :
    streamOK scen5Stream = true ∧ (allEventsOf scen5Stream).isEmpty = false
    ∧ validAnthropic (projAnthropic scen5Stream "claude-x") = true :=
  ⟨by decide, by decide,
   c1_projector_valid scen5Stream "claude-x" (by decide) (by decide)⟩

end LlmFixer
